import Mathlib

/-!
Formal model of the `auto_normalization` relational-schema normalization
engine (`models.py`, `fd_algorithms.py`, `analyzer.py`, `decomposition.py`).

Modelling conventions:
* `Attribute` equality and hashing in the source are name-based, so an
  attribute is modelled by a natural number standing for its name; sets of
  attributes become `Finset Nat`.
* Python iterates hash sets in an unspecified order; wherever the source
  iterates a set (``for attr in fd.determinant``, ``list(some_set)``,
  ``itertools.combinations(some_set, r)``) the model iterates the
  canonically sorted list of the set (`Finset.sort`).
* The unbounded ``while`` loops of the source (`closure`, the decomposition
  work-lists) are modelled with explicit fuel; the work-list algorithms
  return `Option`, with `none` for fuel exhaustion, and termination is
  proved separately.
* `NormalForm.value` in the source is a Russian display string and the
  decomposition guards compare those strings with Python's lexicographic
  `>=`; the model keeps the exact code points of each string and the same
  lexicographic comparison.
* Human-readable violation messages are modelled by the structured
  `Violation` type carrying the same data the source interpolates into the
  message; distinct messages correspond to distinct `Violation` values.
-/

namespace AutoNorm

/-- A functional dependency: `determinant → dependent`
(`models.FunctionalDependency`). -/
structure FD where
  determinant : Finset Nat
  dependent : Finset Nat
deriving DecidableEq

/-- A multivalued dependency `determinant →→ dependent`
(`models.MultivaluedDependency`). -/
structure MVD where
  determinant : Finset Nat
  dependent : Finset Nat
deriving DecidableEq

/-- `FunctionalDependency.is_trivial`: dependent ⊆ determinant. -/
def FD.is_trivial (fd : FD) : Bool :=
  decide (fd.dependent ⊆ fd.determinant)

/-- A relation schema (`models.Relation`): a name, an ordered attribute
list and the declared FDs and MVDs. -/
structure Relation where
  name : String
  attributes : List Nat
  functional_dependencies : List FD
  multivalued_dependencies : List MVD
deriving DecidableEq

/-- `Relation.get_all_attributes_set`. -/
def Relation.get_all_attributes_set (r : Relation) : Finset Nat :=
  r.attributes.toFinset

/-- The ascending list of a set of attributes: the model of Python's
`list(attribute_set)` / set iteration order. (Implemented by filtering a
range rather than by `Finset.sort` so that it evaluates inside the
kernel.) -/
def sortedList (s : Finset Nat) : List Nat :=
  (List.range (s.sup id + 1)).filter (fun a => decide (a ∈ s))

/-- One full pass of the closure loop body (`FDAlgorithms.closure`): for
each FD in order, if its determinant is contained in the closure so far,
add its dependent attributes. -/
def closure_step (fds : List FD) (c : Finset Nat) : Finset Nat :=
  fds.foldl (fun acc fd => if fd.determinant ⊆ acc then acc ∪ fd.dependent else acc) c

/-- The `while changed` loop of `FDAlgorithms.closure`, with fuel: repeat
passes until a pass adds nothing. -/
def closure_aux (fds : List FD) : Nat → Finset Nat → Finset Nat
  | 0, c => c
  | fuel + 1, c =>
    let c' := closure_step fds c
    if c' = c then c else closure_aux fds fuel c'

/-- All attributes mentioned by a list of FDs (used only to bound the fuel
of the closure loop). -/
def fd_attrs (fds : List FD) : Finset Nat :=
  fds.foldl (fun s fd => s ∪ fd.determinant ∪ fd.dependent) ∅

/-- `FDAlgorithms.closure(attributes, fds)`: the attribute-set closure.
The loop can add attributes only from the FDs' dependents, so
`(fd_attrs fds).card + 1` passes always reach the fixpoint. -/
def closure (attributes : Finset Nat) (fds : List FD) : Finset Nat :=
  closure_aux fds ((fd_attrs fds).card + 1) attributes

/-- `FDAlgorithms.is_superkey(attributes, relation)`. -/
def is_superkey (attributes : Finset Nat) (relation : Relation) : Bool :=
  decide (closure attributes relation.functional_dependencies = relation.get_all_attributes_set)

/-! ### Minimal cover (`FDAlgorithms.minimal_cover`) -/

/-- Step 1: split right-hand sides into single-attribute FDs. -/
def split_rhs (fds : List FD) : List FD :=
  fds.flatMap (fun fd => (sortedList fd.dependent).map (fun a => FD.mk fd.determinant {a}))

/-- Step 2 body: remove extraneous determinant attributes of one FD,
testing each removal against the full split set. -/
def reduce_det (split_fds : List FD) (fd : FD) : FD :=
  if fd.determinant.card = 1 then fd
  else
    FD.mk ((sortedList fd.determinant).foldl (fun md attr =>
      let test_det := md \ {attr}
      if test_det ≠ ∅ ∧ fd.dependent ⊆ closure test_det split_fds then test_det else md)
      fd.determinant) fd.dependent

/-- Step 3: drop every FD whose dependent is derivable from all the other
FDs of the step-2 list (`reduced_fds[:i] + reduced_fds[i+1:]`); `prev`
accumulates the already-visited FDs, dropped or not. -/
def drop_derivable : List FD → List FD → List FD
  | _, [] => []
  | prev, fd :: rest =>
    if fd.dependent ⊆ closure fd.determinant (prev ++ rest)
    then drop_derivable (prev ++ [fd]) rest
    else fd :: drop_derivable (prev ++ [fd]) rest

/-- `FDAlgorithms.minimal_cover`. -/
def minimal_cover (fds : List FD) : List FD :=
  let split_fds := split_rhs fds
  let reduced_fds := split_fds.map (reduce_det split_fds)
  drop_derivable [] reduced_fds

/-! ### Candidate keys (`FDAlgorithms.find_candidate_keys`) -/

/-- Attributes appearing in some determinant. -/
def left_all (fds : List FD) : Finset Nat :=
  fds.foldl (fun s fd => s ∪ fd.determinant) ∅

/-- Attributes appearing in some dependent. -/
def right_all (fds : List FD) : Finset Nat :=
  fds.foldl (fun s fd => s ∪ fd.dependent) ∅

/-- Attributes appearing on both sides. -/
def both_sides_of (fds : List FD) : Finset Nat :=
  left_all fds ∩ right_all fds

/-- `must_have = left_only ∪ not_in_fds`: the attributes every key must
contain. -/
def must_have_of (relation : Relation) : Finset Nat :=
  let fds := relation.functional_dependencies
  let both := both_sides_of fds
  let left_only := left_all fds \ both
  let right_only := right_all fds \ both
  let not_in_fds := ((relation.get_all_attributes_set \ left_only) \ right_only) \ both
  left_only ∪ not_in_fds

/-- The subsets of `both_sides` in the order
`itertools.combinations(both_sides, r)` for `r = 0 .. |both_sides|`
(increasing size, drawn from the sorted iteration order). -/
def key_combos (both_sides : Finset Nat) : List (Finset Nat) :=
  ((List.range (both_sides.card + 1)).flatMap
    (fun r => List.sublistsLen r (sortedList both_sides))).map List.toFinset

/-- The enumeration loop of `find_candidate_keys`: test each
`must_have ∪ combo` for superkey-ness, keeping it only when no
already-found key is a subset of it. -/
def keys_fold (relation : Relation) (must_have : Finset Nat) :
    List (Finset Nat) → List (Finset Nat) → List (Finset Nat)
  | [], keys => keys
  | c :: combos, keys =>
    let candidate := must_have ∪ c
    if is_superkey candidate relation
        && keys.all (fun key => decide (¬ key ⊆ candidate))
    then keys_fold relation must_have combos (keys ++ [candidate])
    else keys_fold relation must_have combos keys

/-- `FDAlgorithms.find_candidate_keys`. -/
def find_candidate_keys (relation : Relation) : List (Finset Nat) :=
  let must_have := must_have_of relation
  if is_superkey must_have relation then [must_have]
  else keys_fold relation must_have
    (key_combos (both_sides_of relation.functional_dependencies)) []

/-! ### FD projection (`Decomposer._project_fds`) -/

/-- The dependent computed for a determinant subset:
`closure(det) ∩ attr_set − det`. -/
def canonical_dep (fds : List FD) (attr_set det_set : Finset Nat) : Finset Nat :=
  (closure det_set fds ∩ attr_set) \ det_set

/-- Add a projected FD: widen the first existing FD with the same
determinant and a sub-dependent, else append. -/
def insert_projected : List FD → Finset Nat → Finset Nat → List FD
  | [], det, dep => [FD.mk det dep]
  | fd :: rest, det, dep =>
    if fd.determinant = det ∧ fd.dependent ⊆ dep
    then FD.mk fd.determinant (fd.dependent ∪ dep) :: rest
    else fd :: insert_projected rest det dep

/-- `Decomposer._project_fds(attributes, fds)`: project FDs onto an
attribute subset by enumerating all determinant subsets of sizes
`1 .. len(attributes) − 1`. -/
def project_fds (attributes : List Nat) (fds : List FD) : List FD :=
  ((List.range' 1 (attributes.length - 1)).flatMap
    (fun r => List.sublistsLen r attributes)).foldl (fun acc det_combo =>
      let det_set := det_combo.toFinset
      let dependent := canonical_dep fds attributes.toFinset det_set
      if dependent ≠ ∅ then insert_projected acc det_set dependent else acc) []

/-! ### Normal forms and the analyzer (`models.NormalForm`,
`analyzer.NormalFormAnalyzer`) -/

/-- `models.NormalForm`. -/
inductive NormalForm where
  | UNNORMALIZED
  | FIRST_NF
  | SECOND_NF
  | THIRD_NF
  | BCNF
  | FOURTH_NF
deriving DecidableEq

/-- The code points of the Russian display string of each normal form:
"Ненормализованная", "1НФ", "2НФ", "3НФ", "НФБК", "4НФ". The
decomposition guards compare these strings lexicographically. -/
def NormalForm.value : NormalForm → List Nat
  | .UNNORMALIZED =>
      [1053, 1077, 1085, 1086, 1088, 1084, 1072, 1083, 1080, 1079, 1086, 1074,
       1072, 1085, 1085, 1072, 1103]
  | .FIRST_NF => [49, 1053, 1060]
  | .SECOND_NF => [50, 1053, 1060]
  | .THIRD_NF => [51, 1053, 1060]
  | .BCNF => [1053, 1060, 1041, 1050]
  | .FOURTH_NF => [52, 1053, 1060]

/-- Python's lexicographic `<` on strings of code points. -/
def lex_lt : List Nat → List Nat → Bool
  | [], [] => false
  | [], _ :: _ => true
  | _ :: _, [] => false
  | a :: s, b :: t => if a < b then true else if b < a then false else lex_lt s t

/-- Python's `s >= t` on strings. -/
def str_ge (s t : List Nat) : Bool := !(lex_lt s t)

/-- A violation message, represented by the data the source interpolates
into the human-readable string. -/
inductive Violation where
  | no_attributes
  | no_key
  | part_dep (det dep key : Finset Nat)
  | nf3_viol (det dep : Finset Nat)
  | bcnf_viol (det dep : Finset Nat)
  | mvd_viol (det dep : Finset Nat)
deriving DecidableEq

/-- The eagerly computed state of `analyzer.NormalFormAnalyzer.__init__`. -/
structure Analyzer where
  relation : Relation
  candidate_keys : List (Finset Nat)
  prime_attributes : Finset Nat
  non_prime_attributes : Finset Nat
deriving DecidableEq

/-- `NormalFormAnalyzer(relation)`. -/
def NormalFormAnalyzer (relation : Relation) : Analyzer :=
  let keys := find_candidate_keys relation
  let prime := keys.foldl (fun s k => s ∪ k) ∅
  Analyzer.mk relation keys prime (relation.get_all_attributes_set \ prime)

/-- `check_1nf`: at least one attribute and at least one non-empty
candidate key (`any(self.candidate_keys)`). -/
def check_1nf (a : Analyzer) : Bool × List Violation :=
  let v1 : List Violation :=
    if a.relation.attributes = [] then [Violation.no_attributes] else []
  let v2 : List Violation :=
    if a.candidate_keys.all (fun k => decide (k = ∅)) then [Violation.no_key] else []
  let vs := v1 ++ v2
  (decide (vs = []), vs)

/-- `check_2nf`. -/
def check_2nf (a : Analyzer) : Bool × List Violation :=
  let r1 := check_1nf a
  if r1.1 = false then (false, r1.2)
  else if a.candidate_keys.all (fun k => decide (k.card = 1)) then (true, [])
  else
    let vs := a.relation.functional_dependencies.foldl (fun vs fd =>
      if fd.is_trivial then vs
      else
        let dnp := fd.dependent ∩ a.non_prime_attributes
        if dnp = ∅ then vs
        else
          match a.candidate_keys.find? (fun key =>
              decide (1 < key.card) && decide (fd.determinant ⊆ key) &&
              decide (fd.determinant ≠ key)) with
          | some key => vs ++ [Violation.part_dep fd.determinant dnp key]
          | none => vs) ([] : List Violation)
    (decide (vs = []), vs)

/-- `check_3nf`. -/
def check_3nf (a : Analyzer) : Bool × List Violation :=
  let r2 := check_2nf a
  if r2.1 = false then (false, r2.2)
  else
    let vs := a.relation.functional_dependencies.foldl (fun vs fd =>
      if fd.is_trivial then vs
      else
        let npd := (fd.dependent \ fd.determinant) ∩ a.non_prime_attributes
        if is_superkey fd.determinant a.relation = false ∧ npd ≠ ∅
        then vs ++ [Violation.nf3_viol fd.determinant npd]
        else vs) ([] : List Violation)
    (decide (vs = []), vs)

/-- `check_bcnf`. -/
def check_bcnf (a : Analyzer) : Bool × List Violation :=
  let r1 := check_1nf a
  if r1.1 = false then (false, r1.2)
  else
    let vs := a.relation.functional_dependencies.foldl (fun vs fd =>
      if fd.is_trivial then vs
      else if is_superkey fd.determinant a.relation = false
      then vs ++ [Violation.bcnf_viol fd.determinant fd.dependent]
      else vs) ([] : List Violation)
    (decide (vs = []), vs)

/-- `check_4nf`. -/
def check_4nf (a : Analyzer) : Bool × List Violation :=
  let rb := check_bcnf a
  if rb.1 = false then (false, rb.2)
  else
    let vs := a.relation.multivalued_dependencies.foldl (fun vs mvd =>
      if is_superkey mvd.determinant a.relation = false then
        let remaining := (a.relation.get_all_attributes_set \ mvd.determinant) \ mvd.dependent
        if remaining ≠ ∅ then vs ++ [Violation.mvd_viol mvd.determinant mvd.dependent] else vs
      else vs) ([] : List Violation)
    (decide (vs = []), vs)

/-- `determine_normal_form`: walk 1NF→2NF→3NF→BCNF→4NF, stopping at the
first failing level, de-duplicating the new violations against the
previous level's list. -/
def determine_normal_form (a : Analyzer) : NormalForm × List Violation :=
  let r1 := check_1nf a
  if r1.1 = false then (NormalForm.UNNORMALIZED, r1.2)
  else
    let r2 := check_2nf a
    if r2.1 = false then (NormalForm.FIRST_NF, r2.2.filter (fun v => decide (v ∉ r1.2)))
    else
      let r3 := check_3nf a
      if r3.1 = false then (NormalForm.SECOND_NF, r3.2.filter (fun v => decide (v ∉ r2.2)))
      else
        let rb := check_bcnf a
        if rb.1 = false then (NormalForm.THIRD_NF, rb.2)
        else
          let r4 := check_4nf a
          if r4.1 = false then (NormalForm.BCNF, r4.2)
          else (NormalForm.FOURTH_NF, [])

/-! ### Decomposition (`decomposition.Decomposer`) -/

/-- `models.DecompositionStep`; the `reason` display string is kept
abstractly. -/
structure DecompositionStep where
  original_relation : Relation
  resulting_relations : List Relation
  reason : String
  violated_dependency : Option FD := none
deriving DecidableEq

/-- `models.NormalizationResult`. -/
structure NormalizationResult where
  original_form : NormalForm
  target_form : NormalForm
  original_relation : Relation
  decomposed_relations : List Relation
  steps : List DecompositionStep
  preserved_dependencies : List FD
  lost_dependencies : List FD
deriving DecidableEq

/-- `Decomposer._check_dependency_preservation`: pool the FDs of the
decomposed relations; each original FD is preserved iff its dependent is
in the closure of its determinant over the pool. -/
def check_dependency_preservation (original_fds : List FD)
    (decomposed_relations : List Relation) : List FD × List FD :=
  let all_decomposed_fds := decomposed_relations.flatMap (fun r => r.functional_dependencies)
  original_fds.foldl (fun pl fd =>
    if fd.dependent ⊆ closure fd.determinant all_decomposed_fds
    then (pl.1 ++ [fd], pl.2) else (pl.1, pl.2 ++ [fd])) ([], [])

/-- The first partial dependency found by `decompose_to_2nf`'s scan: an FD
with a non-prime dependent part whose determinant is a proper subset of
some candidate key. -/
def part_dep_of (a : Analyzer) : Option (FD × Finset Nat) :=
  a.relation.functional_dependencies.findSome? (fun fd =>
    if fd.dependent ∩ a.non_prime_attributes = ∅ then none
    else (a.candidate_keys.find? (fun key =>
        decide (fd.determinant ⊆ key) && decide (fd.determinant ≠ key))).map
      (fun key => (fd, key)))

/-- The work-list loop of `decompose_to_2nf` (`pop()` = LIFO, modelled as
head of the list; `extend([r1, r2])` pushes `r1` below `r2`). -/
def nf2_loop : Nat → List Relation → List Relation → List DecompositionStep →
    Option (List Relation × List DecompositionStep)
  | _, [], finals, steps => some (finals, steps)
  | 0, _ :: _, _, _ => none
  | fuel + 1, rel :: rest, finals, steps =>
    let a := NormalFormAnalyzer rel
    match part_dep_of a with
    | none => nf2_loop fuel rest (finals ++ [rel]) steps
    | some (fd, _) =>
      let r1_attrs := sortedList (fd.determinant ∪ fd.dependent)
      let r1 := Relation.mk (rel.name ++ "_partial") r1_attrs
        (project_fds r1_attrs rel.functional_dependencies) []
      let r2_attrs := sortedList (rel.get_all_attributes_set \ fd.dependent)
      let r2 := Relation.mk (rel.name ++ "_main") r2_attrs
        (project_fds r2_attrs rel.functional_dependencies) []
      let step := DecompositionStep.mk rel [r1, r2] "partial dependency" (some fd)
      nf2_loop fuel (r2 :: r1 :: rest) finals (steps ++ [step])

/-- `Decomposer.decompose_to_2nf`. -/
def decompose_to_2nf (relation : Relation) : Option NormalizationResult :=
  let a := NormalFormAnalyzer relation
  let original_form := (determine_normal_form a).1
  if str_ge original_form.value NormalForm.SECOND_NF.value then
    some (NormalizationResult.mk original_form NormalForm.SECOND_NF relation [relation] []
      relation.functional_dependencies [])
  else
    match nf2_loop (3 ^ relation.get_all_attributes_set.card + 1) [relation] [] [] with
    | none => none
    | some (finals, steps) =>
      let pl := check_dependency_preservation relation.functional_dependencies finals
      some (NormalizationResult.mk original_form NormalForm.SECOND_NF relation finals steps
        pl.1 pl.2)

/-- Group the minimal-cover FDs by identical determinant, preserving first
occurrence order (Python dict insertion order). -/
def group_insert (groups : List (Finset Nat × List FD)) (fd : FD) :
    List (Finset Nat × List FD) :=
  match groups with
  | [] => [(fd.determinant, [fd])]
  | (k, l) :: rest =>
    if k = fd.determinant then (k, l ++ [fd]) :: rest
    else (k, l) :: group_insert rest fd

/-- `fd_groups` of `decompose_to_3nf`. -/
def fd_groups (fds : List FD) : List (Finset Nat × List FD) :=
  fds.foldl group_insert []

/-- `Decomposer.decompose_to_3nf` (synthesis). -/
def decompose_to_3nf (relation : Relation) : NormalizationResult :=
  let a := NormalFormAnalyzer relation
  let original_form := (determine_normal_form a).1
  if str_ge original_form.value NormalForm.THIRD_NF.value then
    NormalizationResult.mk original_form NormalForm.THIRD_NF relation [relation] []
      relation.functional_dependencies []
  else
    let minimal_fds := minimal_cover relation.functional_dependencies
    let groups := fd_groups minimal_fds
    let decomposed := groups.foldl (fun acc g =>
      let attrs := g.2.foldl (fun s fd => s ∪ fd.dependent) g.1
      let attr_list := sortedList attrs
      let proj := project_fds attr_list minimal_fds
      acc ++ [Relation.mk (relation.name ++ "_3nf_" ++ toString (acc.length + 1))
        attr_list proj []]) []
    let has_key := decomposed.any (fun rel =>
      a.candidate_keys.any (fun key => decide (key ⊆ rel.get_all_attributes_set)))
    let decomposed :=
      if has_key = false ∧ a.candidate_keys ≠ [] then
        match a.candidate_keys with
        | [] => decomposed
        | key :: _ =>
          let key_list := sortedList key
          decomposed ++ [Relation.mk (relation.name ++ "_key") key_list
            (project_fds key_list relation.functional_dependencies) []]
      else decomposed
    let final_relations := (List.range decomposed.length).filterMap (fun i =>
      match decomposed[i]? with
      | none => none
      | some rel =>
        if (List.range decomposed.length).any (fun j =>
            decide (j ≠ i) && match decomposed[j]? with
              | some other => decide (rel.get_all_attributes_set ⊆ other.get_all_attributes_set)
              | none => false)
        then none else some rel)
    let step := DecompositionStep.mk relation final_relations "3nf synthesis" none
    let pl := check_dependency_preservation relation.functional_dependencies final_relations
    NormalizationResult.mk original_form NormalForm.THIRD_NF relation final_relations [step]
      pl.1 pl.2

/-- The first BCNF-violating FD of a relation: non-trivial with a
non-superkey determinant. -/
def bcnf_violating (rel : Relation) : Option FD :=
  rel.functional_dependencies.find? (fun fd =>
    !fd.is_trivial && !(is_superkey fd.determinant rel))

/-- The work-list loop of `decompose_to_bcnf` (LIFO). -/
def bcnf_loop : Nat → List Relation → List Relation → List DecompositionStep →
    Option (List Relation × List DecompositionStep)
  | _, [], finals, steps => some (finals, steps)
  | 0, _ :: _, _, _ => none
  | fuel + 1, current :: rest, finals, steps =>
    match bcnf_violating current with
    | none => bcnf_loop fuel rest (finals ++ [current]) steps
    | some fd =>
      let r1_attrs := sortedList (fd.determinant ∪ fd.dependent)
      let r1 := Relation.mk (current.name ++ "_bcnf1_" ++ toString steps.length) r1_attrs
        (project_fds r1_attrs current.functional_dependencies) []
      let remaining := current.get_all_attributes_set \ fd.dependent
      let r2_attrs := sortedList (fd.determinant ∪ remaining)
      let r2 := Relation.mk (current.name ++ "_bcnf2_" ++ toString steps.length) r2_attrs
        (project_fds r2_attrs current.functional_dependencies) []
      let step := DecompositionStep.mk current [r1, r2] "bcnf violation" (some fd)
      bcnf_loop fuel (r2 :: r1 :: rest) finals (steps ++ [step])

/-- `Decomposer.decompose_to_bcnf`. -/
def decompose_to_bcnf (relation : Relation) : Option NormalizationResult :=
  let a := NormalFormAnalyzer relation
  let original_form := (determine_normal_form a).1
  if str_ge original_form.value NormalForm.BCNF.value then
    some (NormalizationResult.mk original_form NormalForm.BCNF relation [relation] []
      relation.functional_dependencies [])
  else
    match bcnf_loop (3 ^ relation.get_all_attributes_set.card + 1) [relation] [] [] with
    | none => none
    | some (finals, steps) =>
      let pl := check_dependency_preservation relation.functional_dependencies finals
      some (NormalizationResult.mk original_form NormalForm.BCNF relation finals steps
        pl.1 pl.2)

/-- The first MVD of the original relation that is a live non-trivial 4NF
violation in the current sub-relation. -/
def mvd_violating (orig_mvds : List MVD) (rel : Relation) : Option MVD :=
  orig_mvds.findSome? (fun mvd =>
    let current_attrs := rel.get_all_attributes_set
    if mvd.determinant ⊆ current_attrs then
      let dependent_in_rel := mvd.dependent ∩ current_attrs
      let independent_in_rel := (current_attrs \ mvd.determinant) \ dependent_in_rel
      if dependent_in_rel ≠ ∅ ∧ independent_in_rel ≠ ∅ then
        if is_superkey mvd.determinant rel = false then some mvd else none
      else none
    else none)

/-- The MVD work-list loop of `decompose_to_4nf` (`pop(0)` = FIFO). -/
def nf4_loop (orig_mvds : List MVD) : Nat → List Relation → List Relation →
    List DecompositionStep → Option (List Relation × List DecompositionStep)
  | _, [], finals, steps => some (finals, steps)
  | 0, _ :: _, _, _ => none
  | fuel + 1, current :: rest, finals, steps =>
    match mvd_violating orig_mvds current with
    | none => nf4_loop orig_mvds fuel rest (finals ++ [current]) steps
    | some mvd =>
      let current_attrs := current.get_all_attributes_set
      let r1_attrs := sortedList (mvd.determinant ∪ (mvd.dependent ∩ current_attrs))
      let r1 := Relation.mk (current.name ++ "_4nf_" ++ toString finals.length) r1_attrs
        (project_fds r1_attrs current.functional_dependencies) []
      let independent_attrs := current_attrs \ mvd.dependent
      let r2_attrs := sortedList (mvd.determinant ∪ independent_attrs)
      let r2 := Relation.mk (current.name ++ "_4nf_" ++ toString (finals.length + 1)) r2_attrs
        (project_fds r2_attrs current.functional_dependencies) []
      let step := DecompositionStep.mk current [r1, r2] "mvd violation" none
      nf4_loop orig_mvds fuel (rest ++ [r1, r2]) finals (steps ++ [step])

/-- `Decomposer.decompose_to_4nf`: first decompose to BCNF; with no
declared MVDs, return the BCNF result relabelled to 4NF. -/
def decompose_to_4nf (relation : Relation) : Option NormalizationResult :=
  match decompose_to_bcnf relation with
  | none => none
  | some bcnf_result =>
    let a := NormalFormAnalyzer relation
    let original_form := (determine_normal_form a).1
    if relation.multivalued_dependencies = [] then
      some (NormalizationResult.mk original_form NormalForm.FOURTH_NF relation
        bcnf_result.decomposed_relations bcnf_result.steps
        bcnf_result.preserved_dependencies bcnf_result.lost_dependencies)
    else
      match nf4_loop relation.multivalued_dependencies
          (3 ^ relation.get_all_attributes_set.card + 1)
          bcnf_result.decomposed_relations [] bcnf_result.steps with
      | none => none
      | some (finals, steps) =>
        let pl := check_dependency_preservation relation.functional_dependencies finals
        some (NormalizationResult.mk original_form NormalForm.FOURTH_NF relation finals steps
          pl.1 pl.2)

/-! ### Well-formedness predicates and concrete relations used in the
claims -/

/-- FD sides reference only the relation's attributes. -/
def wf_fds (relation : Relation) : Prop :=
  ∀ fd ∈ relation.functional_dependencies,
    fd.determinant ⊆ relation.get_all_attributes_set ∧
    fd.dependent ⊆ relation.get_all_attributes_set

/-- FD sides are non-empty. -/
def nonempty_fds (relation : Relation) : Prop :=
  ∀ fd ∈ relation.functional_dependencies, fd.determinant ≠ ∅ ∧ fd.dependent ≠ ∅

/-- An FD list with a duplicated dependency. -/
def dup_fd_list : List FD := [FD.mk {0} {1}, FD.mk {0} {1}]

/-- R(A,B,C) with A→B and AC→B (A=0, B=1, C=2). -/
def bad3nf_rel : Relation := Relation.mk "R" [0, 1, 2] [FD.mk {0} {1}, FD.mk {0, 2} {1}] []

/-- The relation with no attributes at all. -/
def empty_rel : Relation := Relation.mk "E" [] [] []

/-- Scenario A: R(A,B,C,D) with A→B, C→D (A=0, B=1, C=2, D=3). -/
def scenario_a : Relation := Relation.mk "R" [0, 1, 2, 3] [FD.mk {0} {1}, FD.mk {2} {3}] []

/-- S(A,B,C) with A→B, B→C: a 3NF/BCNF-violating chain. -/
def chain_rel : Relation := Relation.mk "S" [0, 1, 2] [FD.mk {0} {1}, FD.mk {1} {2}] []

/-- D(A) with the empty-determinant FD ∅→{A}. -/
def empty_det_rel : Relation := Relation.mk "D" [0] [FD.mk ∅ {0}] []

/-- Invariant of the projected-FD accumulator of `project_fds`: each
entry's dependent is exactly the canonical dependent of its (non-empty,
in-range) determinant. -/
def proj_inv (fds : List FD) (attr_set : Finset Nat) (fd : FD) : Prop :=
  fd.determinant ≠ ∅ ∧ fd.determinant ⊆ attr_set ∧
  fd.dependent = canonical_dep fds attr_set fd.determinant ∧ fd.dependent ≠ ∅

/-- Relations handled by the decomposition work lists: non-empty attribute
list and well-formed FDs with non-empty sides. -/
def good_rel (r : Relation) : Prop :=
  r.attributes ≠ [] ∧ wf_fds r ∧ nonempty_fds r

/-- Termination measure of the decomposition work lists. -/
def stack_measure (stack : List Relation) : Nat :=
  (stack.map (fun r => 3 ^ r.get_all_attributes_set.card)).sum

end AutoNorm

namespace AutoNorm

/-! ### Closure kit -/

theorem closure_step_subset (fds : List FD) (c : Finset Nat) :
    c ⊆ closure_step fds c := by
  unfold closure_step
  induction fds generalizing c with
  | nil => simp
  | cons fd fds ih =>
    simp only [List.foldl_cons]
    refine subset_trans ?_ (ih _)
    split
    · exact Finset.subset_union_left
    · exact subset_rfl

theorem closure_step_new_mem (fds : List FD) (c : Finset Nat) :
    closure_step fds c ⊆ c ∪ fd_attrs fds := by
  have key : ∀ (l : List FD) (c s : Finset Nat),
      (∀ fd ∈ l, fd.dependent ⊆ s) →
      List.foldl (fun acc fd => if fd.determinant ⊆ acc then acc ∪ fd.dependent else acc) c l
        ⊆ c ∪ s := by
    intro l
    induction l with
    | nil => intro c s _; simp
    | cons fd l ih =>
      intro c s hs
      simp only [List.foldl_cons]
      split
      · refine subset_trans (ih _ s (fun g hg => hs g (List.mem_cons_of_mem _ hg))) ?_
        have hdep : fd.dependent ⊆ s := hs fd (List.mem_cons_self _ _)
        intro a ha
        rcases Finset.mem_union.mp ha with h' | h'
        · rcases Finset.mem_union.mp h' with h'' | h''
          · exact Finset.mem_union_left _ h''
          · exact Finset.mem_union_right _ (hdep h'')
        · exact Finset.mem_union_right _ h'
      · exact ih _ s (fun g hg => hs g (List.mem_cons_of_mem _ hg))
  refine key fds c (fd_attrs fds) ?_
  intro fd hfd
  -- every dependent is contained in `fd_attrs fds`
  have grow : ∀ (l : List FD) (s t : Finset Nat), s ⊆ t →
      s ⊆ List.foldl (fun s fd => s ∪ fd.determinant ∪ fd.dependent) t l := by
    intro l
    induction l with
    | nil => intro s t h; simpa using h
    | cons g l ih =>
      intro s t h
      simp only [List.foldl_cons]
      exact ih s _ (subset_trans h (subset_trans Finset.subset_union_left Finset.subset_union_left))
  unfold fd_attrs
  induction fds with
  | nil => cases hfd
  | cons g l ih =>
    rcases List.mem_cons.mp hfd with h | h
    · subst h
      simp only [List.foldl_cons]
      exact grow l _ _ Finset.subset_union_right
    · simp only [List.foldl_cons]
      -- the fold over `l` starting anywhere contains fd.dependent by ih-like argument
      clear ih
      have : ∀ (l : List FD) (t : Finset Nat), fd ∈ l →
          fd.dependent ⊆ List.foldl (fun s fd => s ∪ fd.determinant ∪ fd.dependent) t l := by
        intro l
        induction l with
        | nil => intro t h; cases h
        | cons g' l ih' =>
          intro t h
          rcases List.mem_cons.mp h with h | h
          · subst h
            simp only [List.foldl_cons]
            exact grow l _ _ Finset.subset_union_right
          · simp only [List.foldl_cons]
            exact ih' _ h
      exact this l _ h

theorem closure_step_fires {fds : List FD} {c : Finset Nat} {fd : FD}
    (hmem : fd ∈ fds) (hdet : fd.determinant ⊆ c) :
    fd.dependent ⊆ closure_step fds c := by
  unfold closure_step
  induction fds generalizing c with
  | nil => cases hmem
  | cons g l ih =>
    rcases List.mem_cons.mp hmem with h | h
    · subst h
      simp only [List.foldl_cons, if_pos hdet]
      have start : fd.dependent ⊆ c ∪ fd.dependent := Finset.subset_union_right
      calc fd.dependent ⊆ c ∪ fd.dependent := start
        _ ⊆ _ := by
            have := closure_step_subset l (c ∪ fd.dependent)
            unfold closure_step at this
            exact this
    · simp only [List.foldl_cons]
      split
      · exact ih h (subset_trans hdet Finset.subset_union_left)
      · exact ih h hdet

theorem closure_step_closed {fds : List FD} {c : Finset Nat}
    (h : ∀ fd ∈ fds, fd.determinant ⊆ c → fd.dependent ⊆ c) :
    closure_step fds c = c := by
  unfold closure_step
  induction fds generalizing c with
  | nil => simp
  | cons fd l ih =>
    simp only [List.foldl_cons]
    split
    · rename_i hdet
      have hdep := h fd (List.mem_cons_self _ _) hdet
      rw [Finset.union_eq_left.mpr hdep]
      exact ih (fun g hg => h g (List.mem_cons_of_mem _ hg))
    · exact ih (fun g hg => h g (List.mem_cons_of_mem _ hg))

theorem closure_aux_subset (fds : List FD) (fuel : Nat) (c : Finset Nat) :
    c ⊆ closure_aux fds fuel c := by
  induction fuel generalizing c with
  | zero => simp [closure_aux]
  | succ n ih =>
    unfold closure_aux
    simp only
    split
    · exact subset_rfl
    · exact subset_trans (closure_step_subset fds c) (ih _)

theorem closure_aux_of_fixpoint {fds : List FD} {c : Finset Nat}
    (h : closure_step fds c = c) (fuel : Nat) : closure_aux fds fuel c = c := by
  cases fuel with
  | zero => rfl
  | succ n => simp [closure_aux, h]

/-- With enough fuel relative to the attributes still addable, the closure
loop reaches a fixpoint of `closure_step`. -/
theorem closure_aux_fixpoint (fds : List FD) :
    ∀ (fuel : Nat) (c : Finset Nat), (fd_attrs fds \ c).card < fuel →
    closure_step fds (closure_aux fds fuel c) = closure_aux fds fuel c := by
  intro fuel
  induction fuel with
  | zero => intro c h; omega
  | succ n ih =>
    intro c h
    unfold closure_aux
    simp only
    split
    · assumption
    · rename_i hne
      apply ih
      -- the step strictly grew c, by an element of fd_attrs
      have hsub : c ⊆ closure_step fds c := closure_step_subset fds c
      have hss : c ⊂ closure_step fds c := ssubset_of_ne_of_subset (Ne.symm hne) hsub
      obtain ⟨a, ha_step, ha_c⟩ := Finset.exists_of_ssubset hss
      have ha_attrs : a ∈ fd_attrs fds := by
        have := closure_step_new_mem fds c ha_step
        rcases Finset.mem_union.mp this with h' | h'
        · exact absurd h' ha_c
        · exact h'
      have hstrict : (fd_attrs fds \ closure_step fds c).card < (fd_attrs fds \ c).card := by
        apply Finset.card_lt_card
        constructor
        · intro x hx
          rcases Finset.mem_sdiff.mp hx with ⟨hx1, hx2⟩
          exact Finset.mem_sdiff.mpr ⟨hx1, fun hc => hx2 (hsub hc)⟩
        · intro hcon
          have : a ∈ fd_attrs fds \ closure_step fds c :=
            hcon (Finset.mem_sdiff.mpr ⟨ha_attrs, ha_c⟩)
          exact (Finset.mem_sdiff.mp this).2 ha_step
      omega

theorem closure_fixpoint (x : Finset Nat) (fds : List FD) :
    closure_step fds (closure x fds) = closure x fds := by
  unfold closure
  apply closure_aux_fixpoint
  have : (fd_attrs fds \ x).card ≤ (fd_attrs fds).card := Finset.card_le_card (Finset.sdiff_subset)
  omega

theorem subset_closure (x : Finset Nat) (fds : List FD) : x ⊆ closure x fds :=
  closure_aux_subset fds _ x

/-- If `fd` is one of the FDs and its determinant is inside the closure,
its dependent is too (the fixpoint "fires" every applicable FD). -/
theorem closure_fires {x : Finset Nat} {fds : List FD} {fd : FD}
    (hmem : fd ∈ fds) (hdet : fd.determinant ⊆ closure x fds) :
    fd.dependent ⊆ closure x fds := by
  have := closure_step_fires hmem hdet
  rwa [closure_fixpoint] at this

/-- The closure is the least set containing `x` that is closed under the
FDs. -/
theorem closure_minimal {x s : Finset Nat} {fds : List FD}
    (hx : x ⊆ s) (hclosed : ∀ fd ∈ fds, fd.determinant ⊆ s → fd.dependent ⊆ s) :
    closure x fds ⊆ s := by
  unfold closure
  generalize (fd_attrs fds).card + 1 = fuel
  induction fuel generalizing x with
  | zero => simpa [closure_aux] using hx
  | succ n ih =>
    unfold closure_aux
    simp only
    split
    · exact hx
    · apply ih
      -- closure_step fds x ⊆ s
      have : ∀ (l : List FD) (c : Finset Nat), c ⊆ s →
          (∀ fd ∈ l, fd.determinant ⊆ s → fd.dependent ⊆ s) →
          List.foldl (fun acc fd => if fd.determinant ⊆ acc then acc ∪ fd.dependent else acc) c l ⊆ s := by
        intro l
        induction l with
        | nil => intro c hc _; simpa using hc
        | cons fd l ihl =>
          intro c hc hcl
          simp only [List.foldl_cons]
          split
          · rename_i hdet
            exact ihl _ (Finset.union_subset hc
                (hcl fd (List.mem_cons_self _ _) (subset_trans hdet hc)))
              (fun g hg => hcl g (List.mem_cons_of_mem _ hg))
          · exact ihl _ hc (fun g hg => hcl g (List.mem_cons_of_mem _ hg))
      exact this fds x hx hclosed

theorem closure_mono {x y : Finset Nat} (fds : List FD) (h : x ⊆ y) :
    closure x fds ⊆ closure y fds :=
  closure_minimal (subset_trans h (subset_closure y fds))
    (fun _ hfd hdet => closure_fires hfd hdet)

theorem closure_idem (x : Finset Nat) (fds : List FD) :
    closure (closure x fds) fds = closure x fds := by
  apply subset_antisymm
  · exact closure_minimal subset_rfl (fun _ hfd hdet => closure_fires hfd hdet)
  · exact subset_closure _ _

/-- Soundness of replacing an FD list by a derivable one: if every FD of
`g` follows from `f` (its dependent is inside the `f`-closure of its
determinant), then the `g`-closure is contained in the `f`-closure. -/
theorem closure_le_closure_of_derivable {g f : List FD}
    (h : ∀ fd ∈ g, fd.dependent ⊆ closure fd.determinant f) (x : Finset Nat) :
    closure x g ⊆ closure x f := by
  apply closure_minimal (subset_closure x f)
  intro fd hfd hdet
  refine subset_trans (h fd hfd) ?_
  refine subset_trans (closure_mono f hdet) ?_
  rw [closure_idem]

/-- If the FDs only mention attributes of `attrs` and `x ⊆ attrs`, the
closure stays inside `attrs`. -/
theorem closure_subset_attrs {x attrs : Finset Nat} {fds : List FD}
    (hx : x ⊆ attrs) (h : ∀ fd ∈ fds, fd.determinant ⊆ attrs ∧ fd.dependent ⊆ attrs) :
    closure x fds ⊆ attrs :=
  closure_minimal hx (fun fd hfd _ => (h fd hfd).2)

/-- With all determinants non-empty, the closure of the empty set is
empty. -/
theorem closure_empty {fds : List FD}
    (h : ∀ fd ∈ fds, fd.determinant ≠ ∅) : closure ∅ fds = ∅ := by
  unfold closure
  apply closure_aux_of_fixpoint
  apply closure_step_closed
  intro fd hfd hdet
  exact absurd (Finset.subset_empty.mp hdet) (h fd hfd)

/-! ### The canonical set-iteration order -/

theorem mem_sortedList {s : Finset Nat} {a : Nat} : a ∈ sortedList s ↔ a ∈ s := by
  unfold sortedList
  rw [List.mem_filter]
  constructor
  · intro h
    exact of_decide_eq_true h.2
  · intro h
    refine ⟨?_, decide_eq_true h⟩
    rw [List.mem_range]
    have : id a ≤ s.sup id := Finset.le_sup h
    simp only [id] at this
    omega

theorem sortedList_nodup (s : Finset Nat) : (sortedList s).Nodup :=
  (List.nodup_range _).filter _

theorem sortedList_toFinset (s : Finset Nat) : (sortedList s).toFinset = s := by
  ext a
  rw [List.mem_toFinset, mem_sortedList]

theorem sortedList_length (s : Finset Nat) : (sortedList s).length = s.card := by
  rw [← List.toFinset_card_of_nodup (sortedList_nodup s), sortedList_toFinset]

/-! ### Minimal cover: every FD of the cover is derivable from the
original list -/

theorem split_rhs_derivable {F : List FD} {g : FD} (hg : g ∈ split_rhs F) :
    g.dependent ⊆ closure g.determinant F := by
  rcases List.mem_flatMap.mp hg with ⟨fd, hfd, hmem⟩
  rcases List.mem_map.mp hmem with ⟨a, ha, rfl⟩
  have ha' : a ∈ fd.dependent := mem_sortedList.mp ha
  simp only
  intro b hb
  rcases Finset.mem_singleton.mp hb with rfl
  exact closure_fires hfd (subset_closure _ _) ha'

theorem reduce_det_spec (S : List FD) (fd : FD) (hfd : fd ∈ S) :
    (reduce_det S fd).dependent = fd.dependent ∧
    (reduce_det S fd).determinant ⊆ fd.determinant ∧
    fd.dependent ⊆ closure (reduce_det S fd).determinant S := by
  unfold reduce_det
  split
  · exact ⟨rfl, subset_rfl, closure_fires hfd (subset_closure _ _)⟩
  · refine ⟨rfl, ?_⟩
    have key : ∀ (l : List Nat) (md : Finset Nat),
        md ⊆ fd.determinant → fd.dependent ⊆ closure md S →
        (List.foldl (fun md attr =>
          let test_det := md \ {attr}
          if test_det ≠ ∅ ∧ fd.dependent ⊆ closure test_det S then test_det else md) md l)
          ⊆ fd.determinant ∧
        fd.dependent ⊆ closure (List.foldl (fun md attr =>
          let test_det := md \ {attr}
          if test_det ≠ ∅ ∧ fd.dependent ⊆ closure test_det S then test_det else md) md l) S := by
      intro l
      induction l with
      | nil => intro md h1 h2; exact ⟨h1, h2⟩
      | cons a l ih =>
        intro md h1 h2
        simp only [List.foldl_cons]
        split
        · rename_i hcond
          exact ih _ (subset_trans (Finset.sdiff_subset) h1) hcond.2
        · exact ih _ h1 h2
    exact key _ fd.determinant subset_rfl (closure_fires hfd (subset_closure _ _))

theorem drop_derivable_sublist : ∀ (prev l : List FD) (g : FD),
    g ∈ drop_derivable prev l → g ∈ l := by
  intro prev l
  induction l generalizing prev with
  | nil => intro g hg; simp [drop_derivable] at hg
  | cons fd rest ih =>
    intro g hg
    unfold drop_derivable at hg
    split at hg
    · exact List.mem_cons_of_mem _ (ih _ g hg)
    · rcases List.mem_cons.mp hg with h | h
      · exact h ▸ List.mem_cons_self _ _
      · exact List.mem_cons_of_mem _ (ih _ g h)

theorem minimal_cover_derivable (F : List FD) :
    ∀ g ∈ minimal_cover F, g.dependent ⊆ closure g.determinant F := by
  intro g hg
  unfold minimal_cover at hg
  have hg' := drop_derivable_sublist _ _ _ hg
  rcases List.mem_map.mp hg' with ⟨fd, hfd, rfl⟩
  obtain ⟨hdep, _, hcl⟩ := reduce_det_spec (split_rhs F) fd hfd
  rw [hdep]
  refine subset_trans hcl ?_
  exact closure_le_closure_of_derivable (fun g' hg'' => split_rhs_derivable hg'') _

/-! ### Projection of FDs: shape of `project_fds` output -/

theorem canonical_dep_subset (fds : List FD) (attr_set det : Finset Nat) :
    canonical_dep fds attr_set det ⊆ attr_set :=
  subset_trans Finset.sdiff_subset Finset.inter_subset_right

theorem canonical_dep_disjoint (fds : List FD) (attr_set det : Finset Nat) :
    Disjoint det (canonical_dep fds attr_set det) :=
  disjoint_sdiff_self_right

theorem insert_projected_inv {fds : List FD} {A : Finset Nat}
    {det dep : Finset Nat} :
    ∀ {acc : List FD}, (∀ f ∈ acc, proj_inv fds A f) →
    proj_inv fds A (FD.mk det dep) →
    ∀ f ∈ insert_projected acc det dep, proj_inv fds A f := by
  intro acc
  induction acc with
  | nil =>
    intro _ hnew f hf
    simp only [insert_projected, List.mem_singleton] at hf
    exact hf ▸ hnew
  | cons fd rest ih =>
    intro hacc hnew f hf
    unfold insert_projected at hf
    split at hf
    · rename_i hcond
      rcases List.mem_cons.mp hf with h | h
      · -- widened head: its dependent is unchanged because both dependents
        -- are the canonical dependent of the same determinant
        have hfd := hacc fd (List.mem_cons_self _ _)
        have hdet : fd.determinant = det := hcond.1
        have hdepeq : fd.dependent = dep := by
          rw [hfd.2.2.1, hdet]
          exact (hnew.2.2.1).symm
        have hun : fd.dependent ∪ dep = fd.dependent := by
          rw [hdepeq]; exact Finset.union_self _
        have hfdeq : FD.mk fd.determinant (fd.dependent ∪ dep) = fd := by
          rw [hun]
        rw [h, hfdeq]
        exact hfd
      · exact hacc f (List.mem_cons_of_mem _ h)
    · rcases List.mem_cons.mp hf with h | h
      · exact h ▸ hacc fd (List.mem_cons_self _ _)
      · exact ih (fun g hg => hacc g (List.mem_cons_of_mem _ hg)) hnew f h

theorem insert_projected_dets_mem {det dep x : Finset Nat} :
    ∀ {acc : List FD}, x ∈ (insert_projected acc det dep).map FD.determinant →
    x ∈ acc.map FD.determinant ∨ x = det := by
  intro acc
  induction acc with
  | nil =>
    intro h
    simp only [insert_projected, List.map_cons, List.map_nil, List.mem_singleton] at h
    exact Or.inr h
  | cons fd rest ih =>
    intro h
    unfold insert_projected at h
    split at h
    · simp only [List.map_cons, List.mem_cons] at h
      rcases h with h | h
      · exact Or.inl (by simp [h])
      · exact Or.inl (by simp [h])
    · simp only [List.map_cons, List.mem_cons] at h
      rcases h with h | h
      · exact Or.inl (by simp [h])
      · rcases ih h with h' | h'
        · exact Or.inl (List.mem_cons_of_mem _ h')
        · exact Or.inr h'

theorem insert_projected_dets_nodup {fds : List FD} {A : Finset Nat}
    {det dep : Finset Nat} :
    ∀ {acc : List FD}, (∀ f ∈ acc, proj_inv fds A f) →
    dep = canonical_dep fds A det →
    ((acc.map FD.determinant).Nodup) →
    ((insert_projected acc det dep).map FD.determinant).Nodup := by
  intro acc
  induction acc with
  | nil =>
    intro _ _ _
    simp [insert_projected]
  | cons fd rest ih =>
    intro hacc hdep hnd
    unfold insert_projected
    split
    · simpa using hnd
    · rename_i hcond
      have hne : fd.determinant ≠ det := by
        intro heq
        have hfd := hacc fd (List.mem_cons_self _ _)
        exact hcond ⟨heq, by rw [hfd.2.2.1, hdep, heq]⟩
      simp only [List.map_cons, List.nodup_cons] at hnd ⊢
      constructor
      · intro hmem
        rcases insert_projected_dets_mem hmem with h | h
        · exact hnd.1 h
        · exact hne h
      · exact ih (fun g hg => hacc g (List.mem_cons_of_mem _ hg)) hdep hnd.2

theorem project_fold_inv (fds : List FD) (A : Finset Nat) :
    ∀ (combos : List (List Nat)) (acc : List FD),
    (∀ c ∈ combos, c.toFinset ≠ ∅ ∧ c.toFinset ⊆ A) →
    (∀ f ∈ acc, proj_inv fds A f) → ((acc.map FD.determinant).Nodup) →
    (∀ f ∈ List.foldl (fun acc det_combo =>
        let det_set := det_combo.toFinset
        let dependent := canonical_dep fds A det_set
        if dependent ≠ ∅ then insert_projected acc det_set dependent else acc) acc combos,
      proj_inv fds A f) ∧
    ((List.foldl (fun acc det_combo =>
        let det_set := det_combo.toFinset
        let dependent := canonical_dep fds A det_set
        if dependent ≠ ∅ then insert_projected acc det_set dependent else acc) acc
        combos).map FD.determinant).Nodup := by
  intro combos
  induction combos with
  | nil => intro acc _ h1 h2; exact ⟨h1, h2⟩
  | cons c combos ih =>
    intro acc hc h1 h2
    simp only [List.foldl_cons]
    split
    · rename_i hne
      apply ih _ (fun c' hc' => hc c' (List.mem_cons_of_mem _ hc'))
      · refine insert_projected_inv h1 ?_
        obtain ⟨hc1, hc2⟩ := hc c (List.mem_cons_self _ _)
        exact ⟨hc1, hc2, rfl, hne⟩
      · exact insert_projected_dets_nodup h1 rfl h2
    · exact ih _ (fun c' hc' => hc c' (List.mem_cons_of_mem _ hc')) h1 h2

/-- Shape of the `_project_fds` output: each projected FD has non-empty
sides inside the target attribute set, dependent disjoint from
determinant, and no two projected FDs share a determinant. -/
theorem project_fds_spec (attributes : List Nat) (fds : List FD) :
    (∀ fd ∈ project_fds attributes fds,
      fd.determinant ≠ ∅ ∧ fd.determinant ⊆ attributes.toFinset ∧
      fd.dependent ≠ ∅ ∧ fd.dependent ⊆ attributes.toFinset ∧
      Disjoint fd.determinant fd.dependent) ∧
    ((project_fds attributes fds).map FD.determinant).Nodup := by
  have hcombos : ∀ c ∈ (List.range' 1 (attributes.length - 1)).flatMap
      (fun r => List.sublistsLen r attributes),
      c.toFinset ≠ ∅ ∧ c.toFinset ⊆ attributes.toFinset := by
    intro c hc
    rcases List.mem_flatMap.mp hc with ⟨r, hr, hcr⟩
    rcases List.mem_sublistsLen.mp hcr with ⟨hsub, hlen⟩
    have hr1 : 1 ≤ r := (List.mem_range'_1.mp hr).1
    constructor
    · rw [Ne, List.toFinset_eq_empty_iff]
      intro hnil
      rw [hnil] at hlen
      simp at hlen
      omega
    · intro a ha
      rw [List.mem_toFinset] at ha ⊢
      exact hsub.subset ha
  have := project_fold_inv fds attributes.toFinset
    ((List.range' 1 (attributes.length - 1)).flatMap (fun r => List.sublistsLen r attributes))
    [] hcombos (by intro f hf; cases hf) (by simp)
  unfold project_fds
  refine ⟨?_, this.2⟩
  intro fd hfd
  obtain ⟨h1, h2, h3, h4⟩ := this.1 fd hfd
  refine ⟨h1, h2, h4, ?_, ?_⟩
  · rw [h3]; exact canonical_dep_subset _ _ _
  · rw [h3]; exact canonical_dep_disjoint _ _ _

/-! ### Candidate keys: `find_candidate_keys` facts -/

theorem foldl_union_start (f : FD → Finset Nat) :
    ∀ (l : List FD) (s : Finset Nat), s ⊆ l.foldl (fun acc fd => acc ∪ f fd) s := by
  intro l
  induction l with
  | nil => intro s; exact subset_rfl
  | cons fd l ih =>
    intro s
    simp only [List.foldl_cons]
    exact subset_trans Finset.subset_union_left (ih _)

theorem foldl_union_mem (f : FD → Finset Nat) :
    ∀ (l : List FD) (s : Finset Nat) (fd : FD), fd ∈ l →
    f fd ⊆ l.foldl (fun acc fd => acc ∪ f fd) s := by
  intro l
  induction l with
  | nil => intro s fd h; cases h
  | cons g l ih =>
    intro s fd h
    simp only [List.foldl_cons]
    rcases List.mem_cons.mp h with h | h
    · subst h
      exact subset_trans Finset.subset_union_right (foldl_union_start f l _)
    · exact ih _ fd h

theorem foldl_union_le (f : FD → Finset Nat) {t : Finset Nat} :
    ∀ (l : List FD) (s : Finset Nat), s ⊆ t → (∀ fd ∈ l, f fd ⊆ t) →
    l.foldl (fun acc fd => acc ∪ f fd) s ⊆ t := by
  intro l
  induction l with
  | nil => intro s hs _; exact hs
  | cons fd l ih =>
    intro s hs hl
    simp only [List.foldl_cons]
    exact ih _ (Finset.union_subset hs (hl fd (List.mem_cons_self _ _)))
      (fun g hg => hl g (List.mem_cons_of_mem _ hg))

theorem left_all_spec (fds : List FD) :
    (∀ fd ∈ fds, fd.determinant ⊆ left_all fds) ∧
    (∀ t : Finset Nat, (∀ fd ∈ fds, fd.determinant ⊆ t) → left_all fds ⊆ t) := by
  constructor
  · intro fd hfd
    exact foldl_union_mem (fun fd => fd.determinant) fds ∅ fd hfd
  · intro t ht
    exact foldl_union_le (fun fd => fd.determinant) fds ∅ (Finset.empty_subset t) ht

theorem right_all_spec (fds : List FD) :
    (∀ fd ∈ fds, fd.dependent ⊆ right_all fds) ∧
    (∀ t : Finset Nat, (∀ fd ∈ fds, fd.dependent ⊆ t) → right_all fds ⊆ t) := by
  constructor
  · intro fd hfd
    exact foldl_union_mem (fun fd => fd.dependent) fds ∅ fd hfd
  · intro t ht
    exact foldl_union_le (fun fd => fd.dependent) fds ∅ (Finset.empty_subset t) ht

theorem must_have_disjoint_both (relation : Relation) :
    Disjoint (must_have_of relation) (both_sides_of relation.functional_dependencies) := by
  unfold must_have_of
  simp only
  apply Finset.disjoint_union_left.mpr
  exact ⟨Finset.sdiff_disjoint, Finset.sdiff_disjoint⟩

theorem must_have_mem_of (relation : Relation) {a : Nat}
    (ha : a ∈ relation.get_all_attributes_set)
    (hl : a ∉ left_all relation.functional_dependencies ∨
          (a ∈ left_all relation.functional_dependencies ∧
           a ∉ both_sides_of relation.functional_dependencies))
    (hr : a ∉ right_all relation.functional_dependencies ∨
          a ∈ left_all relation.functional_dependencies) :
    a ∈ must_have_of relation := by
  unfold must_have_of
  simp only [Finset.mem_union, Finset.mem_sdiff]
  rcases hl with hl | ⟨hl1, hl2⟩
  · have hnotboth : a ∉ both_sides_of relation.functional_dependencies := by
      intro hcon
      exact hl (Finset.mem_inter.mp hcon).1
    have hnotright : a ∉ right_all relation.functional_dependencies := by
      rcases hr with h | h
      · exact h
      · exact absurd h hl
    right
    refine ⟨⟨⟨ha, ?_⟩, ?_⟩, hnotboth⟩
    · intro hcon
      exact hl hcon.1
    · intro hcon
      exact hnotright hcon.1
  · left
    exact ⟨hl1, hl2⟩

theorem must_have_union_both_superkey (relation : Relation) (hwf : wf_fds relation) :
    is_superkey (must_have_of relation ∪ both_sides_of relation.functional_dependencies)
      relation = true := by
  have hla : left_all relation.functional_dependencies ⊆ relation.get_all_attributes_set :=
    (left_all_spec _).2 _ (fun fd hfd => (hwf fd hfd).1)
  have hsub : must_have_of relation ∪ both_sides_of relation.functional_dependencies ⊆
      relation.get_all_attributes_set := by
    apply Finset.union_subset
    · unfold must_have_of
      apply Finset.union_subset
      · exact subset_trans Finset.sdiff_subset hla
      · exact subset_trans Finset.sdiff_subset
          (subset_trans Finset.sdiff_subset Finset.sdiff_subset)
    · unfold both_sides_of
      exact subset_trans Finset.inter_subset_left hla
  have hdet : ∀ fd ∈ relation.functional_dependencies, fd.determinant ⊆
      must_have_of relation ∪ both_sides_of relation.functional_dependencies := by
    intro fd hfd a ha
    have haL : a ∈ left_all relation.functional_dependencies := (left_all_spec _).1 fd hfd ha
    by_cases hb : a ∈ both_sides_of relation.functional_dependencies
    · exact Finset.mem_union_right _ hb
    · refine Finset.mem_union_left _ (must_have_mem_of relation ((hwf fd hfd).1 ha)
        (Or.inr ⟨haL, hb⟩) (Or.inr haL))
  have hfire : right_all relation.functional_dependencies ⊆
      closure (must_have_of relation ∪ both_sides_of relation.functional_dependencies)
        relation.functional_dependencies := by
    apply (right_all_spec _).2
    intro fd hfd
    exact closure_fires hfd (subset_trans (hdet fd hfd) (subset_closure _ _))
  have hattrs_le : relation.get_all_attributes_set ⊆
      closure (must_have_of relation ∪ both_sides_of relation.functional_dependencies)
        relation.functional_dependencies := by
    intro a ha
    by_cases hr : a ∈ right_all relation.functional_dependencies
    · exact hfire hr
    · apply subset_closure
      by_cases hb : a ∈ both_sides_of relation.functional_dependencies
      · exact Finset.mem_union_right _ hb
      · by_cases hl : a ∈ left_all relation.functional_dependencies
        · exact Finset.mem_union_left _
            (must_have_mem_of relation ha (Or.inr ⟨hl, hb⟩) (Or.inr hl))
        · exact Finset.mem_union_left _
            (must_have_mem_of relation ha (Or.inl hl) (Or.inl hr))
  have hle : closure (must_have_of relation ∪ both_sides_of relation.functional_dependencies)
      relation.functional_dependencies ⊆ relation.get_all_attributes_set :=
    closure_subset_attrs hsub (fun fd hfd => hwf fd hfd)
  unfold is_superkey
  rw [decide_eq_true_iff]
  exact subset_antisymm hle hattrs_le

theorem key_combos_subset (both : Finset Nat) :
    ∀ C ∈ key_combos both, C ⊆ both := by
  intro C hC
  unfold key_combos at hC
  rcases List.mem_map.mp hC with ⟨l, hl, rfl⟩
  rcases List.mem_flatMap.mp hl with ⟨r, _, hlr⟩
  rcases List.mem_sublistsLen.mp hlr with ⟨hsub, _⟩
  intro a ha
  rw [List.mem_toFinset] at ha
  exact mem_sortedList.mp (hsub.subset ha)

theorem key_combos_card_mono (both : Finset Nat) :
    List.Pairwise (fun C C' => C.card ≤ C'.card) (key_combos both) := by
  unfold key_combos
  rw [List.pairwise_map, List.pairwise_flatMap]
  have hcard : ∀ (r : Nat) (l : List Nat), l ∈ List.sublistsLen r (sortedList both) →
      l.toFinset.card = r := by
    intro r l hl
    rcases List.mem_sublistsLen.mp hl with ⟨hsub, hlen⟩
    have hnd : l.Nodup := hsub.nodup (sortedList_nodup both)
    rw [List.toFinset_card_of_nodup hnd, hlen]
  constructor
  · intro r _
    apply List.pairwise_of_forall_mem_list
    intro a ha b hb
    rw [hcard r a ha, hcard r b hb]
  · refine List.Pairwise.imp ?_ (List.pairwise_lt_range (both.card + 1))
    intro r₁ r₂ hlt x hx y hy
    rw [hcard r₁ x hx, hcard r₂ y hy]
    omega

theorem key_combos_mem_top (both : Finset Nat) : both ∈ key_combos both := by
  unfold key_combos
  apply List.mem_map.mpr
  refine ⟨sortedList both, ?_, ?_⟩
  · apply List.mem_flatMap.mpr
    refine ⟨both.card, ?_, ?_⟩
    · exact List.mem_range.mpr (Nat.lt_succ_self _)
    · apply List.mem_sublistsLen.mpr
      exact ⟨List.Sublist.refl _, sortedList_length _⟩
  · exact sortedList_toFinset _

theorem keys_fold_spec (relation : Relation) (mh both : Finset Nat)
    (hdisj : Disjoint mh both) :
    ∀ (combos : List (Finset Nat)) (keys : List (Finset Nat)),
    (∀ C ∈ combos, C ⊆ both) →
    List.Pairwise (fun C C' => C.card ≤ C'.card) combos →
    (∀ k ∈ keys, is_superkey k relation = true ∧ mh ⊆ k ∧ k \ mh ⊆ both ∧
      ∀ C ∈ combos, (k \ mh).card ≤ C.card) →
    List.Pairwise (fun a b => ¬ a ⊆ b ∧ (a \ mh).card ≤ (b \ mh).card) keys →
    (∀ k ∈ keys_fold relation mh combos keys,
      is_superkey k relation = true ∧ mh ⊆ k ∧ k \ mh ⊆ both) ∧
    List.Pairwise (fun a b => ¬ a ⊆ b ∧ (a \ mh).card ≤ (b \ mh).card)
      (keys_fold relation mh combos keys) := by
  intro combos
  induction combos with
  | nil =>
    intro keys _ _ hkeys hpw
    unfold keys_fold
    exact ⟨fun k hk => ⟨(hkeys k hk).1, (hkeys k hk).2.1, (hkeys k hk).2.2.1⟩, hpw⟩
  | cons C combos ih =>
    intro keys hC hpwC hkeys hpw
    have hCsub : C ⊆ both := hC C (List.mem_cons_self _ _)
    have hCtail : ∀ C' ∈ combos, C' ⊆ both :=
      fun C' h => hC C' (List.mem_cons_of_mem _ h)
    have hpwtail : List.Pairwise (fun C C' => C.card ≤ C'.card) combos :=
      (List.pairwise_cons.mp hpwC).2
    have hCle : ∀ C' ∈ combos, C.card ≤ C'.card := (List.pairwise_cons.mp hpwC).1
    have hcand_sdiff : (mh ∪ C) \ mh = C :=
      Finset.union_sdiff_cancel_left (hdisj.mono_right hCsub)
    unfold keys_fold
    simp only
    split
    · rename_i hguard
      rw [Bool.and_eq_true] at hguard
      have hall : ∀ key ∈ keys, ¬ key ⊆ mh ∪ C := by
        intro key hkey
        have := List.all_eq_true.mp hguard.2 key hkey
        exact of_decide_eq_true this
      apply ih _ hCtail hpwtail
      · intro k hk
        rcases List.mem_append.mp hk with h | h
        · obtain ⟨h1, h2, h3, h4⟩ := hkeys k h
          exact ⟨h1, h2, h3, fun C' hC' => h4 C' (List.mem_cons_of_mem _ hC')⟩
        · rcases List.mem_singleton.mp h with rfl
          refine ⟨hguard.1, Finset.subset_union_left, ?_, ?_⟩
          · rw [hcand_sdiff]; exact hCsub
          · intro C' hC'
            rw [hcand_sdiff]
            exact hCle C' hC'
      · apply List.pairwise_append.mpr
        refine ⟨hpw, List.pairwise_singleton _ _, ?_⟩
        intro a ha b hb
        rcases List.mem_singleton.mp hb with rfl
        refine ⟨hall a ha, ?_⟩
        rw [hcand_sdiff]
        exact (hkeys a ha).2.2.2 C (List.mem_cons_self _ _)
    · apply ih _ hCtail hpwtail _ hpw
      intro k hk
      obtain ⟨h1, h2, h3, h4⟩ := hkeys k hk
      exact ⟨h1, h2, h3, fun C' hC' => h4 C' (List.mem_cons_of_mem _ hC')⟩

theorem find_candidate_keys_full_spec (relation : Relation) :
    (∀ k ∈ find_candidate_keys relation, is_superkey k relation = true ∧
      must_have_of relation ⊆ k) ∧
    List.Pairwise (fun a b => ¬ a ⊆ b ∧
      (a \ must_have_of relation).card ≤ (b \ must_have_of relation).card)
      (find_candidate_keys relation) := by
  unfold find_candidate_keys
  dsimp only
  split
  · rename_i h
    constructor
    · intro k hk
      rcases List.mem_singleton.mp hk with rfl
      exact ⟨h, subset_rfl⟩
    · exact List.pairwise_singleton _ _
  · have hspec := keys_fold_spec relation (must_have_of relation)
      (both_sides_of relation.functional_dependencies)
      (must_have_disjoint_both relation)
      (key_combos (both_sides_of relation.functional_dependencies)) []
      (key_combos_subset _) (key_combos_card_mono _)
      (by intro k hk; cases hk) List.Pairwise.nil
    exact ⟨fun k hk => ⟨(hspec.1 k hk).1, (hspec.1 k hk).2.1⟩, hspec.2⟩

theorem find_candidate_keys_superkey (relation : Relation) :
    ∀ k ∈ find_candidate_keys relation, is_superkey k relation = true :=
  fun k hk => ((find_candidate_keys_full_spec relation).1 k hk).1

theorem find_candidate_keys_antichain (relation : Relation) :
    List.Pairwise (fun a b => ¬ a ⊂ b ∧ ¬ b ⊂ a) (find_candidate_keys relation) := by
  have hspec := find_candidate_keys_full_spec relation
  refine List.Pairwise.imp_of_mem ?_ hspec.2
  intro a b ha hb hR
  have hma : must_have_of relation ⊆ a := (hspec.1 a ha).2
  have hmb : must_have_of relation ⊆ b := (hspec.1 b hb).2
  constructor
  · intro hss
    exact hR.1 hss.subset
  · intro hss
    have hsd : b \ must_have_of relation ⊂ a \ must_have_of relation := by
      constructor
      · exact Finset.sdiff_subset_sdiff hss.subset subset_rfl
      · intro hcon
        have heq : b \ must_have_of relation = a \ must_have_of relation :=
          subset_antisymm (Finset.sdiff_subset_sdiff hss.subset subset_rfl) hcon
        have : b = a := by
          have hb' := Finset.union_sdiff_of_subset hmb
          have ha' := Finset.union_sdiff_of_subset hma
          rw [← hb', ← ha', heq]
        exact hss.ne this
    have := Finset.card_lt_card hsd
    omega

theorem keys_fold_ne_nil (relation : Relation) (mh : Finset Nat) :
    ∀ (combos : List (Finset Nat)) (keys : List (Finset Nat)),
    ((∃ C ∈ combos, is_superkey (mh ∪ C) relation = true) ∨ keys ≠ []) →
    keys_fold relation mh combos keys ≠ [] := by
  intro combos
  induction combos with
  | nil =>
    intro keys h
    rcases h with ⟨C, hC, _⟩ | h
    · cases hC
    · simpa [keys_fold] using h
  | cons C combos ih =>
    intro keys h
    unfold keys_fold
    simp only
    split
    · apply ih
      right
      simp
    · rename_i hguard
      apply ih
      rcases h with ⟨C', hC', hsk⟩ | hne
      · rcases List.mem_cons.mp hC' with rfl | hC'
        · right
          intro hnil
          subst hnil
          rw [hsk] at hguard
          simp at hguard
        · exact Or.inl ⟨C', hC', hsk⟩
      · exact Or.inr hne

theorem find_candidate_keys_ne_nil (relation : Relation) (hwf : wf_fds relation) :
    find_candidate_keys relation ≠ [] := by
  unfold find_candidate_keys
  dsimp only
  split
  · simp
  · apply keys_fold_ne_nil
    left
    exact ⟨both_sides_of relation.functional_dependencies, key_combos_mem_top _,
      must_have_union_both_superkey relation hwf⟩

theorem superkey_ne_empty {relation : Relation} (hne : relation.attributes ≠ [])
    (hdet : ∀ fd ∈ relation.functional_dependencies, fd.determinant ≠ ∅)
    {k : Finset Nat} (hk : is_superkey k relation = true) : k ≠ ∅ := by
  intro hkempty
  subst hkempty
  unfold is_superkey at hk
  rw [decide_eq_true_iff, closure_empty hdet] at hk
  exact hne ((List.toFinset_eq_empty_iff _).mp hk.symm)

theorem check_1nf_pass {relation : Relation} (hne : relation.attributes ≠ [])
    (hwf : wf_fds relation)
    (hdet : ∀ fd ∈ relation.functional_dependencies, fd.determinant ≠ ∅) :
    check_1nf (NormalFormAnalyzer relation) = (true, []) := by
  have hkeys := find_candidate_keys_ne_nil relation hwf
  obtain ⟨k, hk⟩ := List.exists_mem_of_ne_nil _ hkeys
  have hkne : k ≠ ∅ :=
    superkey_ne_empty hne hdet (find_candidate_keys_superkey relation k hk)
  have hall : (find_candidate_keys relation).all (fun k => decide (k = ∅)) = false := by
    rw [Bool.eq_false_iff]
    intro hcon
    exact hkne (of_decide_eq_true (List.all_eq_true.mp hcon k hk))
  unfold check_1nf NormalFormAnalyzer
  simp only
  rw [if_neg hne, hall]
  simp

/-! ### BCNF decomposition: split shapes, termination, output quality -/

theorem bcnf_violating_some {rel : Relation} {fd : FD} (h : bcnf_violating rel = some fd) :
    fd ∈ rel.functional_dependencies ∧ fd.is_trivial = false ∧
    is_superkey fd.determinant rel = false := by
  unfold bcnf_violating at h
  have hmem := List.mem_of_find?_eq_some h
  have hp := List.find?_some h
  rw [Bool.and_eq_true, Bool.not_eq_true', Bool.not_eq_true'] at hp
  exact ⟨hmem, hp.1, hp.2⟩

theorem bcnf_violating_none {rel : Relation} (h : bcnf_violating rel = none) :
    ∀ fd ∈ rel.functional_dependencies,
      fd.is_trivial = true ∨ is_superkey fd.determinant rel = true := by
  intro fd hfd
  unfold bcnf_violating at h
  have := List.find?_eq_none.mp h fd hfd
  rw [Bool.and_eq_true, Bool.not_eq_true', Bool.not_eq_true'] at this
  rcases Bool.eq_false_or_eq_true fd.is_trivial with h1 | h1
  · exact Or.inl h1
  · rcases Bool.eq_false_or_eq_true (is_superkey fd.determinant rel) with h2 | h2
    · exact Or.inr h2
    · exact absurd ⟨h1, h2⟩ this

theorem fd_nontrivial_witness {fd : FD} (h : fd.is_trivial = false) :
    ∃ a ∈ fd.dependent, a ∉ fd.determinant := by
  unfold FD.is_trivial at h
  rw [decide_eq_false_iff_not] at h
  obtain ⟨a, ha, ha'⟩ := Finset.not_subset.mp h
  exact ⟨a, ha, ha'⟩

theorem bcnf_split_lt {current : Relation} {fd : FD} (hwf : wf_fds current)
    (hfd : fd ∈ current.functional_dependencies) (hnt : fd.is_trivial = false)
    (hnsk : is_superkey fd.determinant current = false) :
    (fd.determinant ∪ fd.dependent) ≠ ∅ ∧
    (fd.determinant ∪ (current.get_all_attributes_set \ fd.dependent)) ≠ ∅ ∧
    (fd.determinant ∪ fd.dependent).card < current.get_all_attributes_set.card ∧
    (fd.determinant ∪ (current.get_all_attributes_set \ fd.dependent)).card <
      current.get_all_attributes_set.card := by
  obtain ⟨a, haY, haX⟩ := fd_nontrivial_witness hnt
  have hXattrs : fd.determinant ⊆ current.get_all_attributes_set := (hwf fd hfd).1
  have hYattrs : fd.dependent ⊆ current.get_all_attributes_set := (hwf fd hfd).2
  have hsub1 : fd.determinant ∪ fd.dependent ⊆ current.get_all_attributes_set :=
    Finset.union_subset hXattrs hYattrs
  have hne1 : fd.determinant ∪ fd.dependent ≠ current.get_all_attributes_set := by
    intro heq
    have hclos_le : closure fd.determinant current.functional_dependencies ⊆
        current.get_all_attributes_set :=
      closure_subset_attrs hXattrs (fun g hg => hwf g hg)
    have hclos_ge : current.get_all_attributes_set ⊆
        closure fd.determinant current.functional_dependencies := by
      rw [← heq]
      exact Finset.union_subset (subset_closure _ _)
        (closure_fires hfd (subset_closure _ _))
    have : is_superkey fd.determinant current = true := by
      unfold is_superkey
      rw [decide_eq_true_iff]
      exact subset_antisymm hclos_le hclos_ge
    rw [this] at hnsk
    cases hnsk
  have hss1 : fd.determinant ∪ fd.dependent ⊂ current.get_all_attributes_set :=
    ssubset_of_ne_of_subset hne1 hsub1
  have hsub2 : fd.determinant ∪ (current.get_all_attributes_set \ fd.dependent) ⊆
      current.get_all_attributes_set :=
    Finset.union_subset hXattrs Finset.sdiff_subset
  have hamem : a ∉ fd.determinant ∪ (current.get_all_attributes_set \ fd.dependent) := by
    intro hcon
    rcases Finset.mem_union.mp hcon with h | h
    · exact haX h
    · exact (Finset.mem_sdiff.mp h).2 haY
  have hss2 : fd.determinant ∪ (current.get_all_attributes_set \ fd.dependent) ⊂
      current.get_all_attributes_set := by
    refine ssubset_of_ne_of_subset ?_ hsub2
    intro heq
    rw [heq] at hamem
    exact hamem (hYattrs haY)
  refine ⟨?_, ?_, Finset.card_lt_card hss1, Finset.card_lt_card hss2⟩
  · intro hcon
    have : a ∈ (∅ : Finset Nat) := hcon ▸ Finset.mem_union_right _ haY
    cases Finset.not_mem_empty a this
  · intro hcon
    have hYall : current.get_all_attributes_set ⊆ fd.dependent := by
      intro b hb
      by_contra hbY
      have : b ∈ (∅ : Finset Nat) :=
        hcon ▸ Finset.mem_union_right _ (Finset.mem_sdiff.mpr ⟨hb, hbY⟩)
      exact Finset.not_mem_empty b this
    exact hss1.2 (subset_trans hYall Finset.subset_union_right)

theorem make_rel_good (name : String) (S : Finset Nat) (fds : List FD) (hS : S ≠ ∅) :
    good_rel (Relation.mk name (sortedList S) (project_fds (sortedList S) fds) []) ∧
    (Relation.mk name (sortedList S) (project_fds (sortedList S) fds)
      []).get_all_attributes_set = S := by
  have hattrs : (Relation.mk name (sortedList S) (project_fds (sortedList S) fds)
      []).get_all_attributes_set = S := by
    unfold Relation.get_all_attributes_set
    exact sortedList_toFinset S
  refine ⟨⟨?_, ?_, ?_⟩, hattrs⟩
  · intro hcon
    apply hS
    rw [← sortedList_toFinset S]
    have hcon' : sortedList S = [] := hcon
    simp only [hcon', List.toFinset_nil]
  · intro fd hfd
    obtain ⟨_, hdet, _, hdep, _⟩ := (project_fds_spec (sortedList S) fds).1 fd hfd
    rw [hattrs]
    rw [sortedList_toFinset S] at hdet hdep
    exact ⟨hdet, hdep⟩
  · intro fd hfd
    obtain ⟨h1, _, h2, _, _⟩ := (project_fds_spec (sortedList S) fds).1 fd hfd
    exact ⟨h1, h2⟩

theorem fold_violations_nil (rel : Relation) (l : List FD)
    (h : ∀ fd ∈ l, fd.is_trivial = true ∨ is_superkey fd.determinant rel = true) :
    l.foldl (fun vs fd =>
      if fd.is_trivial then vs
      else if is_superkey fd.determinant rel = false
      then vs ++ [Violation.bcnf_viol fd.determinant fd.dependent]
      else vs) ([] : List Violation) = [] := by
  induction l with
  | nil => rfl
  | cons fd l ih =>
    simp only [List.foldl_cons]
    rcases h fd (List.mem_cons_self _ _) with h1 | h1
    · rw [if_pos h1]
      exact ih (fun g hg => h g (List.mem_cons_of_mem _ hg))
    · by_cases ht : fd.is_trivial = true
      · rw [if_pos ht]
        exact ih (fun g hg => h g (List.mem_cons_of_mem _ hg))
      · rw [if_neg ht, if_neg (by simp [h1])]
        exact ih (fun g hg => h g (List.mem_cons_of_mem _ hg))

theorem check_bcnf_true_eq (a : Analyzer) (h : (check_bcnf a).1 = true) :
    check_bcnf a = (true, []) := by
  revert h
  unfold check_bcnf
  dsimp only
  split
  · intro h
    cases h
  · intro h
    have := of_decide_eq_true h
    rw [this]
    rfl

theorem strge_bcnf_cases (f : NormalForm) :
    str_ge f.value NormalForm.BCNF.value = true ↔
      (f = NormalForm.UNNORMALIZED ∨ f = NormalForm.BCNF) := by
  cases f <;> decide

theorem determine_unnorm_iff (a : Analyzer) :
    (determine_normal_form a).1 = NormalForm.UNNORMALIZED ↔ (check_1nf a).1 = false := by
  unfold determine_normal_form
  constructor
  · intro h
    by_contra hcon
    rw [if_neg hcon] at h
    dsimp only at h
    split at h
    · cases h
    · split at h
      · cases h
      · split at h
        · cases h
        · split at h
          · cases h
          · cases h
  · intro h
    rw [if_pos h]

theorem determine_bcnf_or_4nf (a : Analyzer)
    (h : (determine_normal_form a).1 = NormalForm.BCNF ∨
         (determine_normal_form a).1 = NormalForm.FOURTH_NF) :
    (check_bcnf a).1 = true := by
  unfold determine_normal_form at h
  dsimp only at h
  split at h
  · rcases h with h | h <;> cases h
  · split at h
    · rcases h with h | h <;> cases h
    · split at h
      · rcases h with h | h <;> cases h
      · split at h
        · rcases h with h | h <;> cases h
        · rename_i hb
          rcases Bool.eq_false_or_eq_true (check_bcnf a).1 with h1 | h1
          · exact h1
          · exact absurd h1 hb

theorem good_noviol_check_bcnf {r : Relation} (hg : good_rel r)
    (hnone : bcnf_violating r = none) :
    check_bcnf (NormalFormAnalyzer r) = (true, []) := by
  have h1 := check_1nf_pass hg.1 hg.2.1 (fun fd hfd => (hg.2.2 fd hfd).1)
  have hrel : (NormalFormAnalyzer r).relation = r := rfl
  unfold check_bcnf
  dsimp only
  rw [h1]
  rw [if_neg (by simp)]
  rw [hrel]
  rw [fold_violations_nil r r.functional_dependencies (bcnf_violating_none hnone)]
  rfl

theorem pow3_pos (n : Nat) : 1 ≤ 3 ^ n :=
  Nat.one_le_pow n 3 (by omega)

theorem stack_measure_cons (r : Relation) (rest : List Relation) :
    stack_measure (r :: rest) = 3 ^ r.get_all_attributes_set.card + stack_measure rest := by
  unfold stack_measure
  simp

theorem split_measure_lt {a1 a2 c m n : Nat} (h1 : a1 < c) (h2 : a2 < c)
    (hm : 3 ^ c + m < n + 1) : 3 ^ a2 + (3 ^ a1 + m) < n := by
  have hc : c = (c - 1) + 1 := by omega
  have hp1 : 3 ^ a1 ≤ 3 ^ (c - 1) := Nat.pow_le_pow_right (by omega) (by omega)
  have hp2 : 3 ^ a2 ≤ 3 ^ (c - 1) := Nat.pow_le_pow_right (by omega) (by omega)
  have hcexp : 3 ^ c = 3 * 3 ^ (c - 1) := by
    calc 3 ^ c = 3 ^ ((c - 1) + 1) := by rw [← hc]
      _ = 3 ^ (c - 1) * 3 := pow_succ 3 (c - 1)
      _ = 3 * 3 ^ (c - 1) := by ring
  have hpos := pow3_pos (c - 1)
  omega

theorem bcnf_loop_isSome :
    ∀ (fuel : Nat) (stack finals : List Relation) (steps : List DecompositionStep),
    (∀ r ∈ stack, wf_fds r) → stack_measure stack < fuel →
    (bcnf_loop fuel stack finals steps).isSome = true := by
  intro fuel
  induction fuel with
  | zero =>
    intro stack finals steps _ hm
    exact absurd hm (Nat.not_lt_zero _)
  | succ n ih =>
    intro stack finals steps hstack hm
    cases stack with
    | nil => simp [bcnf_loop]
    | cons current rest =>
      rw [stack_measure_cons] at hm
      have hcur : wf_fds current := hstack current (List.mem_cons_self _ _)
      have hrest : ∀ r ∈ rest, wf_fds r := fun r hr => hstack r (List.mem_cons_of_mem _ hr)
      unfold bcnf_loop
      cases hv : bcnf_violating current with
      | none =>
        apply ih rest (finals ++ [current]) steps hrest
        have := pow3_pos current.get_all_attributes_set.card
        omega
      | some fd =>
        obtain ⟨hmem, hnt, hnsk⟩ := bcnf_violating_some hv
        obtain ⟨hne1, hne2, hlt1, hlt2⟩ := bcnf_split_lt hcur hmem hnt hnsk
        have hg1 := make_rel_good (current.name ++ "_bcnf1_" ++ toString steps.length)
          (fd.determinant ∪ fd.dependent) current.functional_dependencies hne1
        have hg2 := make_rel_good (current.name ++ "_bcnf2_" ++ toString steps.length)
          (fd.determinant ∪ (current.get_all_attributes_set \ fd.dependent))
          current.functional_dependencies hne2
        apply ih
        · intro r hr
          rcases List.mem_cons.mp hr with rfl | hr
          · exact hg2.1.2.1
          · rcases List.mem_cons.mp hr with rfl | hr
            · exact hg1.1.2.1
            · exact hrest r hr
        · rw [stack_measure_cons, stack_measure_cons, hg2.2, hg1.2]
          exact split_measure_lt hlt1 hlt2 hm

theorem bcnf_loop_finals :
    ∀ (fuel : Nat) (stack finals : List Relation) (steps : List DecompositionStep)
      (out : List Relation × List DecompositionStep),
    (∀ r ∈ stack, good_rel r) →
    (∀ r ∈ finals, good_rel r ∧ bcnf_violating r = none) →
    bcnf_loop fuel stack finals steps = some out →
    ∀ r ∈ out.1, good_rel r ∧ bcnf_violating r = none := by
  intro fuel
  induction fuel with
  | zero =>
    intro stack finals steps out _ hfin h
    cases stack with
    | nil =>
      unfold bcnf_loop at h
      injection h with h
      subst h
      exact hfin
    | cons current rest =>
      simp [bcnf_loop] at h
  | succ n ih =>
    intro stack finals steps out hstack hfin h
    cases stack with
    | nil =>
      unfold bcnf_loop at h
      injection h with h
      subst h
      exact hfin
    | cons current rest =>
      have hcur : good_rel current := hstack current (List.mem_cons_self _ _)
      have hrest : ∀ r ∈ rest, good_rel r := fun r hr => hstack r (List.mem_cons_of_mem _ hr)
      unfold bcnf_loop at h
      cases hv : bcnf_violating current with
      | none =>
        rw [hv] at h
        refine ih rest (finals ++ [current]) steps out hrest ?_ h
        intro r hr
        rcases List.mem_append.mp hr with hr | hr
        · exact hfin r hr
        · rcases List.mem_singleton.mp hr with rfl
          exact ⟨hcur, hv⟩
      | some fd =>
        rw [hv] at h
        obtain ⟨hmem, hnt, hnsk⟩ := bcnf_violating_some hv
        obtain ⟨hne1, hne2, _, _⟩ := bcnf_split_lt hcur.2.1 hmem hnt hnsk
        have hg1 := make_rel_good (current.name ++ "_bcnf1_" ++ toString steps.length)
          (fd.determinant ∪ fd.dependent) current.functional_dependencies hne1
        have hg2 := make_rel_good (current.name ++ "_bcnf2_" ++ toString steps.length)
          (fd.determinant ∪ (current.get_all_attributes_set \ fd.dependent))
          current.functional_dependencies hne2
        refine ih _ finals _ out ?_ hfin h
        intro r hr
        rcases List.mem_cons.mp hr with rfl | hr
        · exact hg2.1
        · rcases List.mem_cons.mp hr with rfl | hr
          · exact hg1.1
          · exact hrest r hr

theorem decompose_bcnf_isSome_helper (relation : Relation) (hwf : wf_fds relation) :
    (decompose_to_bcnf relation).isSome = true := by
  unfold decompose_to_bcnf
  dsimp only
  split
  · rfl
  · have hmeas : stack_measure [relation] <
        3 ^ relation.get_all_attributes_set.card + 1 := by
      unfold stack_measure
      simp
    have hs := bcnf_loop_isSome (3 ^ relation.get_all_attributes_set.card + 1)
      [relation] [] []
      (by intro r hr; rcases List.mem_singleton.mp hr with rfl; exact hwf) hmeas
    rcases hL : bcnf_loop (3 ^ relation.get_all_attributes_set.card + 1)
        [relation] [] [] with _ | pr
    · rw [hL] at hs
      cases hs
    · obtain ⟨finals, steps⟩ := pr
      rfl

theorem decompose_bcnf_output_helper (relation : Relation)
    (hattrs : relation.attributes ≠ []) (hwf : wf_fds relation)
    (hne : nonempty_fds relation) :
    ∀ res, decompose_to_bcnf relation = some res →
    ∀ r ∈ res.decomposed_relations, check_bcnf (NormalFormAnalyzer r) = (true, []) := by
  intro res h
  have hdet : ∀ fd ∈ relation.functional_dependencies, fd.determinant ≠ ∅ :=
    fun fd hfd => (hne fd hfd).1
  have hgood : good_rel relation := ⟨hattrs, hwf, hne⟩
  unfold decompose_to_bcnf at h
  dsimp only at h
  split at h
  · rename_i hguard
    injection h with h
    subst h
    intro r hr
    rcases List.mem_singleton.mp hr with rfl
    rcases (strge_bcnf_cases _).mp hguard with hform | hform
    · exfalso
      have hu := (determine_unnorm_iff (NormalFormAnalyzer r)).mp hform
      rw [check_1nf_pass hattrs hwf hdet] at hu
      cases hu
    · exact check_bcnf_true_eq _ (determine_bcnf_or_4nf _ (Or.inl hform))
  · rcases hL : bcnf_loop (3 ^ relation.get_all_attributes_set.card + 1)
        [relation] [] [] with _ | pr
    · rw [hL] at h
      cases h
    · obtain ⟨finals, steps⟩ := pr
      rw [hL] at h
      injection h with h
      subst h
      intro r hr
      have hr' := bcnf_loop_finals _ [relation] [] [] (finals, steps)
        (by intro r' hr'; rcases List.mem_singleton.mp hr' with rfl; exact hgood)
        (by intro r' hr'; cases hr') hL r hr
      exact good_noviol_check_bcnf hr'.1 hr'.2

theorem decompose_to_bcnf_fields {relation : Relation} {res : NormalizationResult}
    (h : decompose_to_bcnf relation = some res) :
    res.original_form = (determine_normal_form (NormalFormAnalyzer relation)).1 ∧
    res.original_relation = relation := by
  unfold decompose_to_bcnf at h
  dsimp only at h
  split at h
  · injection h with h
    subst h
    exact ⟨rfl, rfl⟩
  · rcases hL : bcnf_loop (3 ^ relation.get_all_attributes_set.card + 1)
        [relation] [] [] with _ | pr
    · rw [hL] at h
      cases h
    · obtain ⟨finals, steps⟩ := pr
      rw [hL] at h
      injection h with h
      subst h
      exact ⟨rfl, rfl⟩

/-! ### Claim theorems -/

/-- Claim C1, counterexample: the FD list `[{0}→{1}, {0}→{1}]` has
non-empty determinants and dependents, yet the closure of `{0}` under its
minimal cover differs from the closure under the original list — the
redundancy-elimination stage tests each FD against all the others
simultaneously and deletes both copies, so `minimal_cover` is empty and
closure equivalence fails. -/
theorem claim_c1_counterexample :
    (∀ fd ∈ dup_fd_list, fd.determinant ≠ ∅ ∧ fd.dependent ≠ ∅) ∧
    closure {0} (minimal_cover dup_fd_list) ≠ closure {0} dup_fd_list := by
  constructor
  · decide
  · decide

/-- Claim C1, amended: for every FD list F with non-empty determinant and
dependent sets and every attribute set X, the closure of X under
`minimal_cover F` is contained in (but need not equal) the closure of X
under F: the three-stage minimal cover never derives more than the
original list. -/
theorem claim_c1_amended (F : List FD) (X : Finset Nat)
    (h : ∀ fd ∈ F, fd.determinant ≠ ∅ ∧ fd.dependent ≠ ∅) :
    closure X (minimal_cover F) ⊆ closure X F :=
  closure_le_closure_of_derivable (minimal_cover_derivable F) X

/-- Witness for the amended C1 at `F = [{0}→{1}]`, `X = {0}`. -/
theorem claim_c1_amended_witness :
    (∀ fd ∈ [FD.mk {0} {1}], fd.determinant ≠ ∅ ∧ fd.dependent ≠ ∅) ∧
    closure {0} (minimal_cover [FD.mk {0} {1}]) ⊆ closure {0} [FD.mk {0} {1}] :=
  ⟨by decide, claim_c1_amended [FD.mk {0} {1}] {0} (by decide)⟩

/-- Claim C2 (code bug): the well-formed relation R(A,B,C) with
FDs `A→B` and `AC→B` (classified 1NF, so the synthesis path runs) comes
out of `decompose_to_3nf` with BOTH original FDs in `lost_dependencies` —
the buggy simultaneous redundancy elimination of `minimal_cover` deletes
both reduced copies of `A→B`, leaving a schema from which neither original
FD is derivable, contradicting the dependency-preservation guarantee of
3NF synthesis. -/
theorem claim_c2_code_bug :
    (∀ fd ∈ bad3nf_rel.functional_dependencies,
      fd.determinant ≠ ∅ ∧ fd.dependent ≠ ∅ ∧
      fd.determinant ⊆ bad3nf_rel.get_all_attributes_set ∧
      fd.dependent ⊆ bad3nf_rel.get_all_attributes_set) ∧
    (determine_normal_form (NormalFormAnalyzer bad3nf_rel)).1 = NormalForm.FIRST_NF ∧
    (decompose_to_3nf bad3nf_rel).lost_dependencies =
      [FD.mk {0} {1}, FD.mk {0, 2} {1}] := by
  refine ⟨by decide, by decide, by decide⟩

/-- Claim C3, counterexample: the relation with no attributes (vacuously
well-formed FDs) is classified UNNORMALIZED, whose Russian display string
compares `>=` the BCNF string, so `decompose_to_bcnf` returns it
unchanged — and it fails `check_bcnf` on re-analysis. -/
theorem claim_c3_counterexample :
    empty_rel.functional_dependencies = [] ∧
    (decompose_to_bcnf empty_rel).map (fun res => res.decomposed_relations.map
      (fun r => (check_bcnf (NormalFormAnalyzer r)).1)) = some [false] := by
  constructor
  · rfl
  · decide

/-- Claim C3, amended: for every relation with at least one attribute and
well-formed FDs with non-empty sides, `decompose_to_bcnf` returns a result
every one of whose decomposed relations passes `check_bcnf` (with an empty
violation list) when re-analyzed. -/
theorem claim_c3_amended (relation : Relation)
    (hattrs : relation.attributes ≠ []) (hwf : wf_fds relation)
    (hne : nonempty_fds relation) :
    ∃ res, decompose_to_bcnf relation = some res ∧
      ∀ r ∈ res.decomposed_relations, check_bcnf (NormalFormAnalyzer r) = (true, []) := by
  obtain ⟨res, hres⟩ := Option.isSome_iff_exists.mp (decompose_bcnf_isSome_helper relation hwf)
  exact ⟨res, hres, decompose_bcnf_output_helper relation hattrs hwf hne res hres⟩

/-- Witness for the amended C3 at S(A,B,C) with `A→B`, `B→C`. -/
theorem claim_c3_amended_witness :
    (chain_rel.attributes ≠ [] ∧ wf_fds chain_rel ∧ nonempty_fds chain_rel) ∧
    ∃ res, decompose_to_bcnf chain_rel = some res ∧
      ∀ r ∈ res.decomposed_relations, check_bcnf (NormalFormAnalyzer r) = (true, []) :=
  ⟨⟨by decide, by unfold wf_fds; decide, by unfold nonempty_fds; decide⟩,
    claim_c3_amended chain_rel (by decide) (by unfold wf_fds; decide)
      (by unfold nonempty_fds; decide)⟩

/-- Claim C4: `decompose_to_bcnf` terminates on every relation whose FDs
have non-empty sides drawn from the relation's attributes — with the fuel
bound `3 ^ |attributes| + 1` the work-list loop always completes, because
each split of a relation on a non-trivial violating FD produces two
relations with strictly fewer attributes. -/
theorem claim_c4_termination (relation : Relation)
    (hwf : wf_fds relation) (hne : nonempty_fds relation) :
    (decompose_to_bcnf relation).isSome = true :=
  decompose_bcnf_isSome_helper relation hwf

/-- Witness for C4 at S(A,B,C) with `A→B`, `B→C`. -/
theorem claim_c4_termination_witness :
    (wf_fds chain_rel ∧ nonempty_fds chain_rel) ∧
    (decompose_to_bcnf chain_rel).isSome = true :=
  ⟨⟨by unfold wf_fds; decide, by unfold nonempty_fds; decide⟩,
    claim_c4_termination chain_rel (by unfold wf_fds; decide)
      (by unfold nonempty_fds; decide)⟩

/-- Claim C5: every key returned by `find_candidate_keys` is a superkey
(its closure under the relation's FDs is the full attribute set), and no
returned key is a proper subset or superset of another returned key. -/
theorem claim_c5_minimal_superkeys (relation : Relation) (hwf : wf_fds relation) :
    (∀ k ∈ find_candidate_keys relation,
      closure k relation.functional_dependencies = relation.get_all_attributes_set) ∧
    List.Pairwise (fun a b => ¬ a ⊂ b ∧ ¬ b ⊂ a) (find_candidate_keys relation) := by
  constructor
  · intro k hk
    exact of_decide_eq_true (find_candidate_keys_superkey relation k hk)
  · exact find_candidate_keys_antichain relation

/-- Witness for C5 at scenario A. -/
theorem claim_c5_witness :
    wf_fds scenario_a ∧
    ((∀ k ∈ find_candidate_keys scenario_a,
      closure k scenario_a.functional_dependencies = scenario_a.get_all_attributes_set) ∧
    List.Pairwise (fun a b => ¬ a ⊂ b ∧ ¬ b ⊂ a) (find_candidate_keys scenario_a)) :=
  ⟨by unfold wf_fds; decide, claim_c5_minimal_superkeys scenario_a (by unfold wf_fds; decide)⟩

/-- Claim C6: attribute-set closure is idempotent. -/
theorem claim_c6_closure_idempotent (X : Finset Nat) (F : List FD) :
    closure (closure X F) F = closure X F :=
  closure_idem X F

/-- Claim C7, counterexample: on R(A,B,C,D) with `A→B`, `C→D`,
`decompose_to_2nf` does NOT yield only the relations {A,B} and {C,D}: the
recursive split of the `main` branch also leaves the key relation {A,C}
in the output. -/
theorem claim_c7_counterexample :
    (decompose_to_2nf scenario_a).map (fun res =>
      decide (∃ r ∈ res.decomposed_relations,
        r.get_all_attributes_set ≠ ({0, 1} : Finset Nat) ∧
        r.get_all_attributes_set ≠ ({2, 3} : Finset Nat))) = some true := by
  decide

/-- Claim C7, amended: on R(A,B,C,D) (A=0, B=1, C=2, D=3) with FDs `A→B`,
`C→D`: the candidate keys are exactly `[{A,C}]`, the determined normal
form is 1NF, and `decompose_to_2nf` yields exactly the three relations
with attribute sets {A,C}, {C,D}, {A,B}, each of which passes `check_2nf`
when re-analyzed, with no lost dependencies. -/
theorem claim_c7_amended :
    find_candidate_keys scenario_a = [{0, 2}] ∧
    (determine_normal_form (NormalFormAnalyzer scenario_a)).1 = NormalForm.FIRST_NF ∧
    (decompose_to_2nf scenario_a).map
      (fun res => res.decomposed_relations.map Relation.get_all_attributes_set) =
      some [{0, 2}, {2, 3}, {0, 1}] ∧
    (decompose_to_2nf scenario_a).map
      (fun res => res.decomposed_relations.map
        (fun r => (check_2nf (NormalFormAnalyzer r)).1)) = some [true, true, true] ∧
    (decompose_to_2nf scenario_a).map (fun res => res.lost_dependencies) = some [] := by
  refine ⟨by decide, by decide, by decide, by decide, by decide⟩

/-- Claim C8: with no declared MVDs, `decompose_to_4nf` returns exactly
the `decompose_to_bcnf` result relabelled to target form 4NF (same
decomposed relations, steps, preserved and lost dependency lists). -/
theorem claim_c8_no_mvd_relabel (relation : Relation)
    (h : relation.multivalued_dependencies = []) :
    decompose_to_4nf relation = (decompose_to_bcnf relation).map
      (fun res => { res with target_form := NormalForm.FOURTH_NF }) := by
  unfold decompose_to_4nf
  rcases hb : decompose_to_bcnf relation with _ | bres
  · rfl
  · obtain ⟨h1, h2⟩ := decompose_to_bcnf_fields hb
    dsimp only
    rw [if_pos h, Option.map_some', ← h1, ← h2]

/-- Witness for C8 at S(A,B,C) with `A→B`, `B→C` and no MVDs. -/
theorem claim_c8_witness :
    chain_rel.multivalued_dependencies = [] ∧
    decompose_to_4nf chain_rel = (decompose_to_bcnf chain_rel).map
      (fun res => { res with target_form := NormalForm.FOURTH_NF }) :=
  ⟨rfl, claim_c8_no_mvd_relabel chain_rel rfl⟩

/-- Claim C9: every FD produced by `_project_fds(A, F)` has a non-empty
determinant inside A, a non-empty dependent inside A disjoint from the
determinant, and no two produced FDs share a determinant. -/
theorem claim_c9_project_fds_wf (A : List Nat) (F : List FD)
    (h : ∀ fd ∈ F, fd.determinant ≠ ∅ ∧ fd.dependent ≠ ∅) :
    (∀ fd ∈ project_fds A F,
      fd.determinant ≠ ∅ ∧ fd.determinant ⊆ A.toFinset ∧
      fd.dependent ≠ ∅ ∧ fd.dependent ⊆ A.toFinset ∧
      Disjoint fd.determinant fd.dependent) ∧
    ((project_fds A F).map FD.determinant).Nodup :=
  project_fds_spec A F

/-- Witness for C9 at `A = [0,1]`, `F = [{0}→{1}]`. -/
theorem claim_c9_witness :
    (∀ fd ∈ [FD.mk {0} {1}], fd.determinant ≠ ∅ ∧ fd.dependent ≠ ∅) ∧
    ((∀ fd ∈ project_fds [0, 1] [FD.mk {0} {1}],
      fd.determinant ≠ ∅ ∧ fd.determinant ⊆ List.toFinset [0, 1] ∧
      fd.dependent ≠ ∅ ∧ fd.dependent ⊆ List.toFinset [0, 1] ∧
      Disjoint fd.determinant fd.dependent) ∧
    ((project_fds [0, 1] [FD.mk {0} {1}]).map FD.determinant).Nodup) :=
  ⟨by decide, claim_c9_project_fds_wf [0, 1] [FD.mk {0} {1}] (by decide)⟩

/-- Claim C10, counterexample: D(A) with the FD `∅→{A}` has one attribute
and FD sides inside the relation's attributes, yet `find_candidate_keys`
returns `[∅]` and `check_1nf` fails (`any(candidate_keys)` sees only the
empty, falsy key): the 1NF check can fail on a relation with attributes. -/
theorem claim_c10_counterexample :
    (∀ fd ∈ empty_det_rel.functional_dependencies,
      fd.determinant ⊆ empty_det_rel.get_all_attributes_set ∧
      fd.dependent ⊆ empty_det_rel.get_all_attributes_set) ∧
    empty_det_rel.attributes ≠ [] ∧
    find_candidate_keys empty_det_rel = [∅] ∧
    (check_1nf (NormalFormAnalyzer empty_det_rel)).1 = false := by
  refine ⟨by decide, by decide, by decide, by decide⟩

/-- Claim C10, amended: for every relation with at least one attribute
whose FD sides reference only the relation's attributes AND whose
determinants are non-empty, `find_candidate_keys` returns a non-empty
list and the analyzer's 1NF check passes. -/
theorem claim_c10_amended (relation : Relation)
    (hattrs : relation.attributes ≠ []) (hwf : wf_fds relation)
    (hdet : ∀ fd ∈ relation.functional_dependencies, fd.determinant ≠ ∅) :
    find_candidate_keys relation ≠ [] ∧
    (check_1nf (NormalFormAnalyzer relation)).1 = true := by
  refine ⟨find_candidate_keys_ne_nil relation hwf, ?_⟩
  rw [check_1nf_pass hattrs hwf hdet]

/-- Witness for the amended C10 at R(A,B,C) with `A→B`, `AC→B`. -/
theorem claim_c10_amended_witness :
    (bad3nf_rel.attributes ≠ [] ∧ wf_fds bad3nf_rel ∧
      (∀ fd ∈ bad3nf_rel.functional_dependencies, fd.determinant ≠ ∅)) ∧
    (find_candidate_keys bad3nf_rel ≠ [] ∧
      (check_1nf (NormalFormAnalyzer bad3nf_rel)).1 = true) :=
  ⟨⟨by decide, by unfold wf_fds; decide, by decide⟩,
    claim_c10_amended bad3nf_rel (by decide) (by unfold wf_fds; decide) (by decide)⟩

end AutoNorm
